import Mathlib

/-!
Shallow embedding of the mesh-to-graph construction subsystem of
`utilities.py` (repository `graph-pde`): the stencil builders `grid`,
`grid_edge`, `grid_edge_aug`, the strided `downsample`, the exhaustive
`ball_connectivity` of `SquareMeshGenerator`, and the multi-resolution
assembler `multi_grid`.

Numeric model: Python/NumPy floats are idealized as `ℚ` (for the purely
rational arithmetic of the stencil builders and of `multi_grid`) and as `ℝ`
(for the Euclidean distances of `ball_connectivity`); the transcendental
primitives `np.sqrt`/`np.exp` appearing only inside the augmented feature
tuples are abstracted as function parameters of `grid_edge_aug`, so every
statement about it holds for any interpretation of those primitives.
NumPy `reshape` size mismatches, the `TypeError` raised by calling a string,
and the `UnboundLocalError` of the selector dispatch are modelled with
`Option`/`Except`.
-/

namespace GraphPDE

abbrev Q3 := ℚ × ℚ × ℚ
abbrev Q7 := ℚ × ℚ × ℚ × ℚ × ℚ × ℚ × ℚ

/-- `np.linspace(0.0, 1.0, n)`, entry `j`. -/
def linspaceAt (n j : ℕ) : ℚ := if n ≤ 1 then 0 else (j : ℚ) / ((n : ℚ) - 1)

/-- `np.vstack([xx.ravel() for xx in np.meshgrid(xs, ys)]).T` for
`xs = linspace(0,1,n_x)`, `ys = linspace(0,1,n_y)`: row `i` is
`(xs[i % n_x], ys[i / n_x])`. -/
def gridPoints (n_x n_y : ℕ) : List (ℚ × ℚ) :=
  (List.range (n_y * n_x)).map (fun i => (linspaceAt n_x (i % n_x), linspaceAt n_y (i / n_x)))

/-- The neighbor-stencil double loop shared verbatim by `grid`, `grid_edge`
and `grid_edge_aug` (their `edge_index` accumulation is character-for-character
identical): `for y in range(n_y): for x in range(n_x): i = y*n_x+x`;
if not at the right boundary append `(i, i+1)` and `(i+1, i)`;
if not at the bottom boundary append `(i, i+n_x)` and `(i+n_x, i)`. -/
def stencilEdgeIndex (n_x n_y : ℕ) : List (ℕ × ℕ) :=
  (List.range n_y).flatMap (fun y => (List.range n_x).flatMap (fun x =>
    (if x ≠ n_x - 1 then
      [(y * n_x + x, y * n_x + x + 1), (y * n_x + x + 1, y * n_x + x)] else []) ++
    (if y ≠ n_y - 1 then
      [(y * n_x + x, y * n_x + x + n_x), (y * n_x + x + n_x, y * n_x + x)] else [])))

/-- The `edge_attr` accumulation of `grid`: `(1,0,0)`/`(-1,0,0)` for the
horizontal pair, `(0,1,0)`/`(0,-1,0)` for the vertical pair. -/
def gridAttr (n_x n_y : ℕ) : List Q3 :=
  (List.range n_y).flatMap (fun y => (List.range n_x).flatMap (fun x =>
    (if x ≠ n_x - 1 then [((1 : ℚ), 0, 0), (-1, 0, 0)] else []) ++
    (if y ≠ n_y - 1 then [((0 : ℚ), 1, 0), (0, -1, 0)] else [])))

/-- `a[x, y]` after `a = a.reshape(n_x, n_y)`: flat element `x * n_y + y`
(row-major), with NumPy's out-of-range behaviour irrelevant because callers
guard the reshape. -/
def aVal (n_y : ℕ) (a : List ℚ) (x y : ℕ) : ℚ := a.getD (x * n_y + y) 0

/-- The `edge_attr` accumulation of `grid_edge`: `d = 1/n_x` (resp. `1/n_y`),
`a1 = a[x,y]`, `a2 = a[x+1,y]` (resp. `a[x,y+1]`), forward `(d, a1, a2)`,
reverse `(d, a2, a1)`. -/
def gridEdgeAttr (n_x n_y : ℕ) (a : List ℚ) : List Q3 :=
  (List.range n_y).flatMap (fun y => (List.range n_x).flatMap (fun x =>
    (if x ≠ n_x - 1 then
      [((1 : ℚ) / (n_x : ℚ), aVal n_y a x y, aVal n_y a (x + 1) y),
       ((1 : ℚ) / (n_x : ℚ), aVal n_y a (x + 1) y, aVal n_y a x y)] else []) ++
    (if y ≠ n_y - 1 then
      [((1 : ℚ) / (n_y : ℚ), aVal n_y a x y, aVal n_y a x (y + 1)),
       ((1 : ℚ) / (n_y : ℚ), aVal n_y a x (y + 1), aVal n_y a x y)] else [])))

/-- The `edge_attr` accumulation of `grid_edge_aug`; `sq` stands for `np.sqrt`
and `ex` for `np.exp` (both applied exactly as in the source: the kernel
entries `1/sq|a1*a2|`, `ex(-(d)^2)`, `ex(-(d/0.1)^2)`, `ex(-(d/0.01)^2)` are
written with `a1 * a2` in this order on both the forward and reverse edge). -/
def gridEdgeAugAttr (sq ex : ℚ → ℚ) (n_x n_y : ℕ) (a : List ℚ) : List Q7 :=
  (List.range n_y).flatMap (fun y => (List.range n_x).flatMap (fun x =>
    (if x ≠ n_x - 1 then
      [((1 : ℚ) / (n_x : ℚ), aVal n_y a x y, aVal n_y a (x + 1) y,
        1 / sq |aVal n_y a x y * aVal n_y a (x + 1) y|,
        ex (-((1 : ℚ) / (n_x : ℚ)) ^ 2), ex (-((1 : ℚ) / (n_x : ℚ) / (1 / 10)) ^ 2),
        ex (-((1 : ℚ) / (n_x : ℚ) / (1 / 100)) ^ 2)),
       ((1 : ℚ) / (n_x : ℚ), aVal n_y a (x + 1) y, aVal n_y a x y,
        1 / sq |aVal n_y a x y * aVal n_y a (x + 1) y|,
        ex (-((1 : ℚ) / (n_x : ℚ)) ^ 2), ex (-((1 : ℚ) / (n_x : ℚ) / (1 / 10)) ^ 2),
        ex (-((1 : ℚ) / (n_x : ℚ) / (1 / 100)) ^ 2))] else []) ++
    (if y ≠ n_y - 1 then
      [((1 : ℚ) / (n_y : ℚ), aVal n_y a x y, aVal n_y a x (y + 1),
        1 / sq |aVal n_y a x y * aVal n_y a x (y + 1)|,
        ex (-((1 : ℚ) / (n_y : ℚ)) ^ 2), ex (-((1 : ℚ) / (n_y : ℚ) / (1 / 10)) ^ 2),
        ex (-((1 : ℚ) / (n_y : ℚ) / (1 / 100)) ^ 2)),
       ((1 : ℚ) / (n_y : ℚ), aVal n_y a x (y + 1), aVal n_y a x y,
        1 / sq |aVal n_y a x y * aVal n_y a x (y + 1)|,
        ex (-((1 : ℚ) / (n_y : ℚ)) ^ 2), ex (-((1 : ℚ) / (n_y : ℚ) / (1 / 10)) ^ 2),
        ex (-((1 : ℚ) / (n_y : ℚ) / (1 / 100)) ^ 2))] else [])))

/-- `grid(n_x, n_y)`: unit-square lattice, stencil edges, offset features. -/
def grid (n_x n_y : ℕ) : List (ℚ × ℚ) × List (ℕ × ℕ) × List Q3 :=
  (gridPoints n_x n_y, stencilEdgeIndex n_x n_y, gridAttr n_x n_y)

/-- `grid_edge(n_x, n_y, a)`; `none` models the `ValueError` of
`a.reshape(n_x, n_y)` when the field has the wrong number of elements. -/
def grid_edge (n_x n_y : ℕ) (a : List ℚ) :
    Option (List (ℚ × ℚ) × List (ℕ × ℕ) × List Q3) :=
  if a.length = n_x * n_y then
    some (gridPoints n_x n_y, stencilEdgeIndex n_x n_y, gridEdgeAttr n_x n_y a)
  else none

/-- `grid_edge_aug(n_x, n_y, a)`, parametrized by the `np.sqrt`/`np.exp`
primitives. -/
def grid_edge_aug (sq ex : ℚ → ℚ) (n_x n_y : ℕ) (a : List ℚ) :
    Option (List (ℚ × ℚ) × List (ℕ × ℕ) × List Q7) :=
  if a.length = n_x * n_y then
    some (gridPoints n_x n_y, stencilEdgeIndex n_x n_y, gridEdgeAugAttr sq ex n_x n_y a)
  else none

/-- `downsample(data, grid_size, l)`:
`data.reshape(-1, k, k)` (a `ValueError`, i.e. `none`, unless `k² ∣ len`),
then `data[:, ::l, ::l]` (each axis keeps indices `0, l, 2l, … < k`, i.e.
`⌈k/l⌉` of them; `l = 0` is a slicing `ValueError`), then
`reshape(-1, (k//l)**2)` (a `ValueError` unless the sliced size is a positive
multiple of `(k//l)²`). The surviving entry at flat position `t`, decoded as
batch `b = t / m²`, row `p = (t % m²) / m`, column `q = t % m` with
`m = ⌈k/l⌉`, is input element `b·k² + (p·l)·k + q·l`. -/
def downsample (data : List ℚ) (grid_size l : ℕ) : Option (List ℚ) :=
  if grid_size = 0 then none
  else if data.length % grid_size ^ 2 ≠ 0 then none
  else if l = 0 then none
  else
    let batch := data.length / grid_size ^ 2
    let m := (grid_size + l - 1) / l
    let w := (grid_size / l) ^ 2
    if w = 0 then none
    else if batch * m ^ 2 % w ≠ 0 then none
    else some ((List.range (batch * (m * m))).map (fun t =>
      data.getD (t / (m * m) * grid_size ^ 2 + t % (m * m) / m * l * grid_size + t % m * l) 0))

/-- Euclidean distance of two coordinate rows, as computed by
`sklearn.metrics.pairwise_distances`. -/
noncomputable def pairDist (p q : List ℝ) : ℝ :=
  Real.sqrt (((p.zip q).map (fun c => (c.1 - c.2) ^ 2)).sum)

open scoped Classical in
/-- `SquareMeshGenerator.ball_connectivity(r)` applied to a stored point list:
`np.vstack(np.where(pwd <= r))` lists, in row-major scan order, every ordered
pair `(i, j)` with `pwd[i, j] ≤ r` (self pairs included). -/
noncomputable def ball_connectivity (pts : List (List ℝ)) (r : ℝ) : List (ℕ × ℕ) :=
  (List.range pts.length).flatMap (fun i =>
    (List.range pts.length).filterMap (fun j =>
      if pairDist (pts.getD i []) (pts.getD j []) ≤ r then some (i, j) else none))

/-- The runtime failures `multi_grid` can hit, plus `unknownVariant`, the
error the specification prescribes for an unsupported selector; the code
never produces `unknownVariant`. -/
inductive MGErr where
  | valueError
  | stringNotCallable
  | unboundLocalEdgeIndexInner
  | emptyCat
  | unknownVariant (sel : String)
deriving DecidableEq

/-- `np.array(v).reshape(rows, cols)` as a list of rows (callers guard
`v.length = rows * cols`). -/
def reshapeRows (v : List ℕ) (rows cols : ℕ) : List (List ℕ) :=
  (List.range rows).map (fun rr => (List.range cols).map (fun c => v.getD (rr * cols + c) 0))

/-- `index2` of `multi_grid`:
`np.array(range(n_l//4)).reshape(h_x_l//2, h_y_l//2).repeat(2, axis=0)
.repeat(2, axis=1).reshape(-1) + num_nodes`. -/
def interIndex2 (hx hy off2 : ℕ) : List ℕ :=
  ((((reshapeRows (List.range (hx * hy / 4)) (hx / 2) (hy / 2)).flatMap
      (fun row => [row, row])).map
      (fun row => row.flatMap (fun e => [e, e]))).flatten).map (fun e => e + off2)

/-- The inter-level edge block of `multi_grid` (lines 434-450): `index1` is
`range(n_l) + num_nodes` (the offset of the fine level), `index2` the
block-coarsened parents offset into the next level;
`torch.cat([u, v], dim=-1).reshape(2, -1)` splits the concatenation into two
halves and pairs them (which needs an even total), and the features are
`(0,0,1)` repeated `n_l` times then `(0,0,-1)` repeated `n_l` times.
The first `if` is the `reshape` validity check of `index2`. -/
def interBlock (hx hy off1 off2 : ℕ) : Option (List (ℕ × ℕ) × List Q3) :=
  if hx * hy / 4 = hx / 2 * (hy / 2) then
    let n_l := hx * hy
    let index1 := (List.range n_l).map (fun t => t + off1)
    let index2 := interIndex2 hx hy off2
    if (index1 ++ index2).length % 2 = 0 then
      let m := (index1 ++ index2).length / 2
      some ((((index1 ++ index2).take m).zip ((index1 ++ index2).drop m)) ++
            (((index2 ++ index1).take m).zip ((index2 ++ index1).drop m)),
            List.replicate n_l ((0 : ℚ), (0 : ℚ), (1 : ℚ)) ++
            List.replicate n_l ((0 : ℚ), (0 : ℚ), (-1 : ℚ)))
    else none
  else none

/-- One iteration of the `for l in range(depth)` loop of `multi_grid`, given
the running `num_nodes`. The local variable `grid` is the *string* selector:
in the source it shadows the builder function `grid`, so the branch
`grid == 'grid'` calls a string (`TypeError`), the branches `'grid_edge'`
and `'grid_edge_aug'` both call `grid_edge(h_y_l, h_x_l, a)` (note the
swapped resolution arguments and that the augmented branch also calls
`grid_edge`), and any other selector leaves `edge_index_inner` unassigned
(`UnboundLocalError` at the `edge_index_inner + num_nodes` line). -/
def mgStep (n_x n_y depth : ℕ) (grid : String) (params : List ℚ) (l num : ℕ) :
    Except MGErr (List (ℚ × ℚ) × List (ℕ × ℕ) × List Q3 × ℕ) :=
  let hx := n_x / 2 ^ l
  let hy := n_y / 2 ^ l
  let n_l := hx * hy
  match downsample params n_x (2 ^ l) with
  | none => .error .valueError
  | some a =>
    let inner : Except MGErr (List (ℚ × ℚ) × List (ℕ × ℕ) × List Q3) :=
      if grid = "grid" then .error .stringNotCallable
      else if grid = "grid_edge" then
        match grid_edge hy hx a with
        | none => .error .valueError
        | some r => .ok r
      else if grid = "grid_edge_aug" then
        match grid_edge hy hx a with
        | none => .error .valueError
        | some r => .ok r
      else .error .unboundLocalEdgeIndexInner
    match inner with
    | .error e => .error e
    | .ok (X, ei, ea) =>
      let ei' := ei.map (fun p => (p.1 + num, p.2 + num))
      if l ≠ depth - 1 then
        match interBlock hx hy num (num + n_l) with
        | none => .error .valueError
        | some (ie, ia) => .ok (X, ei' ++ ie, ea ++ ia, num + n_l)
      else .ok (X, ei', ea, num + n_l)

/-- The whole `for l in range(depth)` loop: `cnt` levels remain, the next one
is `l`, and `num` is the running `num_nodes`. Returns the concatenated node
chunks, edge-index chunks, edge-feature chunks and the final `num_nodes`. -/
def mgBuild (n_x n_y depth : ℕ) (grid : String) (params : List ℚ) :
    ℕ → ℕ → ℕ → Except MGErr (List (ℚ × ℚ) × List (ℕ × ℕ) × List Q3 × ℕ)
  | 0, _, num => .ok ([], [], [], num)
  | cnt + 1, l, num =>
    match mgStep n_x n_y depth grid params l num with
    | .error e => .error e
    | .ok (X, E, A, num') =>
      match mgBuild n_x n_y depth grid params cnt (l + 1) num' with
      | .error e => .error e
      | .ok (Xr, Er, Ar, numF) => .ok (X ++ Xr, E ++ Er, A ++ Ar, numF)

/-- `multi_grid(depth, n_x, n_y, grid, params)`: run the loop, then
`torch.cat` the chunks (a `RuntimeError`, modelled as `emptyCat`, when
`depth = 0` leaves the chunk lists empty) and return
`(X, edge_index, edge_attr, mask_index, num_nodes)` with
`mask_index = range(n_x * n_y)`. -/
def multi_grid (depth n_x n_y : ℕ) (grid : String) (params : List ℚ) :
    Except MGErr (List (ℚ × ℚ) × List (ℕ × ℕ) × List Q3 × List ℕ × ℕ) :=
  match mgBuild n_x n_y depth grid params depth 0 0 with
  | .error e => .error e
  | .ok (X, E, A, num) =>
    if depth = 0 then .error .emptyCat
    else .ok (X, E, A, List.range (n_x * n_y), num)

/-- Node count of level `l` (`h_x_l * h_y_l`). -/
def lvlSize (n_x n_y l : ℕ) : ℕ := n_x / 2 ^ l * (n_y / 2 ^ l)

/-- Global node-index offset of level `l`: total nodes of the finer levels. -/
def mgOffset (n_x n_y l : ℕ) : ℕ := ((List.range l).map (lvlSize n_x n_y)).sum

/-- Closed form of the 2×2 block-coarsening parent map: fine node
`t = u * hy + v` has parent `(u/2) * (hy/2) + (v/2)` in the coarse grid. -/
def coarseParent (hy t : ℕ) : ℕ := t / hy / 2 * (hy / 2) + t % hy / 2

/-- Flat position, in the input field array, of the value the field-weighted
builders use for node `i = y*n_x + x`: element `x * n_y + y` (the transposed
position). -/
def fieldIndex (n_x n_y i : ℕ) : ℕ := i % n_x * n_y + i / n_x

/-- The lockstep pair structure of the stencil builders' outputs: edges come
in consecutive forward/reverse pairs `(i,j)`, `(j,i)` whose features are `a`
and `sw a`. -/
inductive SwapPaired {α : Type} (sw : α → α) : List (ℕ × ℕ) → List α → Prop where
  | nil : SwapPaired sw [] []
  | cons (i j : ℕ) (a : α) {es : List (ℕ × ℕ)} {bs : List α} :
      SwapPaired sw es bs → SwapPaired sw ((i, j) :: (j, i) :: es) (a :: sw a :: bs)

/-- Positionwise correspondence of an edge list and a feature list. -/
def Aligned {α : Type} (P : ℕ × ℕ → α → Prop) (es : List (ℕ × ℕ)) (bs : List α) : Prop :=
  es.length = bs.length ∧ ∀ k : ℕ, ∀ e a, es[k]? = some e → bs[k]? = some a → P e a

end GraphPDE

namespace GraphPDE

lemma sum_map_range (n : ℕ) (f : ℕ → ℕ) :
    ((List.range n).map f).sum = ∑ x ∈ Finset.range n, f x := rfl

lemma sum_range_pred (n B : ℕ) :
    ∑ x ∈ Finset.range n, (if x ≠ n - 1 then B else 0) = (n - 1) * B := by
  cases n with
  | zero => simp
  | succ k =>
    rw [Finset.sum_range_succ]
    have h1 : ∀ x ∈ Finset.range k, (if x ≠ k + 1 - 1 then B else 0) = B := by
      intro x hx
      rw [Finset.mem_range] at hx
      have : x ≠ k + 1 - 1 := by omega
      rw [if_pos this]
    rw [Finset.sum_congr rfl h1]
    simp

lemma cell_lt {x y n_x n_y : ℕ} (hx : x < n_x) (hy : y < n_y) :
    y * n_x + x < n_x * n_y := by
  calc y * n_x + x < y * n_x + n_x := by omega
  _ = (y + 1) * n_x := by ring
  _ ≤ n_y * n_x := Nat.mul_le_mul_right _ hy
  _ = n_x * n_y := Nat.mul_comm _ _

lemma stencilEdgeIndex_length (n_x n_y : ℕ) :
    (stencilEdgeIndex n_x n_y).length = 2 * (n_x - 1) * n_y + 2 * n_x * (n_y - 1) := by
  unfold stencilEdgeIndex
  rw [List.length_flatMap, sum_map_range]
  have hinner : ∀ y : ℕ,
      (List.length ∘ fun y => (List.range n_x).flatMap (fun x =>
        (if x ≠ n_x - 1 then
          [(y * n_x + x, y * n_x + x + 1), (y * n_x + x + 1, y * n_x + x)] else []) ++
        (if y ≠ n_y - 1 then
          [(y * n_x + x, y * n_x + x + n_x), (y * n_x + x + n_x, y * n_x + x)] else []))) y
      = 2 * (n_x - 1) + (if y ≠ n_y - 1 then 2 * n_x else 0) := by
    intro y
    simp only [Function.comp_apply]
    rw [List.length_flatMap, sum_map_range]
    have hblock : ∀ x : ℕ,
        ((if x ≠ n_x - 1 then
          [(y * n_x + x, y * n_x + x + 1), (y * n_x + x + 1, y * n_x + x)] else []) ++
        (if y ≠ n_y - 1 then
          [(y * n_x + x, y * n_x + x + n_x), (y * n_x + x + n_x, y * n_x + x)] else [])).length
        = (if x ≠ n_x - 1 then 2 else 0) + (if y ≠ n_y - 1 then 2 else 0) := by
      intro x
      rw [List.length_append, apply_ite List.length, apply_ite List.length]
      simp
    calc (∑ x ∈ Finset.range n_x, (List.length ∘ fun x =>
          (if x ≠ n_x - 1 then
            [(y * n_x + x, y * n_x + x + 1), (y * n_x + x + 1, y * n_x + x)] else []) ++
          (if y ≠ n_y - 1 then
            [(y * n_x + x, y * n_x + x + n_x), (y * n_x + x + n_x, y * n_x + x)] else [])) x)
        = ∑ x ∈ Finset.range n_x,
            ((if x ≠ n_x - 1 then 2 else 0) + (if y ≠ n_y - 1 then 2 else 0)) := by
          refine Finset.sum_congr rfl (fun x _ => ?_)
          simpa using hblock x
      _ = (n_x - 1) * 2 + n_x * (if y ≠ n_y - 1 then 2 else 0) := by
          rw [Finset.sum_add_distrib, sum_range_pred, Finset.sum_const]
          simp [Finset.card_range, Nat.smul_one_eq_cast]
      _ = 2 * (n_x - 1) + (if y ≠ n_y - 1 then 2 * n_x else 0) := by
          rcases Decidable.em (y ≠ n_y - 1) with h | h <;> simp [h] <;> ring
  rw [Finset.sum_congr rfl (fun y _ => hinner y), Finset.sum_add_distrib, sum_range_pred,
    Finset.sum_const, Finset.card_range]
  have : n_y • (2 * (n_x - 1)) = n_y * (2 * (n_x - 1)) := by simp
  rw [this]
  cases n_x with
  | zero => cases n_y with
    | zero => simp
    | succ m => simp
  | succ k =>
    cases n_y with
    | zero => simp
    | succ m =>
      have h1 : k + 1 - 1 = k := rfl
      have h2 : m + 1 - 1 = m := rfl
      rw [h1, h2]
      ring

lemma stencilEdgeIndex_mem {n_x n_y : ℕ} {e : ℕ × ℕ} (h : e ∈ stencilEdgeIndex n_x n_y) :
    e.1 < n_x * n_y ∧ e.2 < n_x * n_y := by
  unfold stencilEdgeIndex at h
  simp only [List.mem_flatMap, List.mem_range, List.mem_append] at h
  obtain ⟨y, hy, x, hx, hmem⟩ := h
  have hxy : y * n_x + x < n_x * n_y := cell_lt hx hy
  rcases hmem with h | h
  · by_cases hxe : x ≠ n_x - 1
    · rw [if_pos hxe] at h
      have hx1 : x + 1 < n_x := by omega
      have h2 : y * n_x + (x + 1) < n_x * n_y := cell_lt hx1 hy
      simp only [List.mem_cons, List.not_mem_nil, or_false] at h
      rcases h with h | h <;> subst h <;> refine ⟨?_, ?_⟩ <;> dsimp only <;> omega
    · rw [if_neg hxe] at h
      simp at h
  · by_cases hye : y ≠ n_y - 1
    · rw [if_pos hye] at h
      have hy1 : y + 1 < n_y := by omega
      have h2 : (y + 1) * n_x + x < n_x * n_y := cell_lt hx hy1
      have hv : y * n_x + x + n_x = (y + 1) * n_x + x := by ring
      simp only [List.mem_cons, List.not_mem_nil, or_false] at h
      rcases h with h | h <;> subst h <;> refine ⟨?_, ?_⟩ <;> dsimp only <;> omega
    · rw [if_neg hye] at h
      simp at h

lemma grid_edge_eq_some {n_x n_y : ℕ} {a : List ℚ}
    {X : List (ℚ × ℚ)} {ei : List (ℕ × ℕ)} {ea : List Q3}
    (h : grid_edge n_x n_y a = some (X, ei, ea)) :
    X = gridPoints n_x n_y ∧ ei = stencilEdgeIndex n_x n_y ∧
    ea = gridEdgeAttr n_x n_y a ∧ a.length = n_x * n_y := by
  unfold grid_edge at h
  split at h
  · next hlen =>
    injection h with h
    injection h with h1 h
    injection h with h2 h3
    exact ⟨h1.symm, h2.symm, h3.symm, hlen⟩
  · exact absurd h (by simp)

lemma grid_edge_aug_eq_some {sq ex : ℚ → ℚ} {n_x n_y : ℕ} {a : List ℚ}
    {X : List (ℚ × ℚ)} {ei : List (ℕ × ℕ)} {ea : List Q7}
    (h : grid_edge_aug sq ex n_x n_y a = some (X, ei, ea)) :
    X = gridPoints n_x n_y ∧ ei = stencilEdgeIndex n_x n_y ∧
    ea = gridEdgeAugAttr sq ex n_x n_y a ∧ a.length = n_x * n_y := by
  unfold grid_edge_aug at h
  split at h
  · next hlen =>
    injection h with h
    injection h with h1 h
    injection h with h2 h3
    exact ⟨h1.symm, h2.symm, h3.symm, hlen⟩
  · exact absurd h (by simp)

end GraphPDE

namespace GraphPDE

/-- C2: for every `n_x ≥ 2`, `n_y ≥ 2`, each stencil builder (`grid`,
`grid_edge`, `grid_edge_aug`) returns an edge list of exactly
`2·(n_x−1)·n_y + 2·n_x·(n_y−1)` directed edges, and every source and target
index in that list is strictly less than `n_x·n_y`. -/
theorem stencil_builders_edge_count_and_bounds (n_x n_y : ℕ)
    (hx : 2 ≤ n_x) (hy : 2 ≤ n_y) :
    ((grid n_x n_y).2.1.length = 2 * (n_x - 1) * n_y + 2 * n_x * (n_y - 1) ∧
      ∀ e ∈ (grid n_x n_y).2.1, e.1 < n_x * n_y ∧ e.2 < n_x * n_y) ∧
    (∀ (a : List ℚ) X ei ea, grid_edge n_x n_y a = some (X, ei, ea) →
      ei.length = 2 * (n_x - 1) * n_y + 2 * n_x * (n_y - 1) ∧
      ∀ e ∈ ei, e.1 < n_x * n_y ∧ e.2 < n_x * n_y) ∧
    (∀ (sq ex : ℚ → ℚ) (a : List ℚ) X ei ea,
      grid_edge_aug sq ex n_x n_y a = some (X, ei, ea) →
      ei.length = 2 * (n_x - 1) * n_y + 2 * n_x * (n_y - 1) ∧
      ∀ e ∈ ei, e.1 < n_x * n_y ∧ e.2 < n_x * n_y) := by
  refine ⟨⟨stencilEdgeIndex_length n_x n_y, fun e he => stencilEdgeIndex_mem he⟩, ?_, ?_⟩
  · intro a X ei ea h
    obtain ⟨-, hei, -, -⟩ := grid_edge_eq_some h
    subst hei
    exact ⟨stencilEdgeIndex_length n_x n_y, fun e he => stencilEdgeIndex_mem he⟩
  · intro sq ex a X ei ea h
    obtain ⟨-, hei, -, -⟩ := grid_edge_aug_eq_some h
    subst hei
    exact ⟨stencilEdgeIndex_length n_x n_y, fun e he => stencilEdgeIndex_mem he⟩

theorem stencil_builders_edge_count_and_bounds_witness :
    (2 ≤ 2 ∧ 2 ≤ 3) ∧
    ((grid 2 3).2.1.length = 2 * (2 - 1) * 3 + 2 * 2 * (3 - 1) ∧
      ∀ e ∈ (grid 2 3).2.1, e.1 < 2 * 3 ∧ e.2 < 2 * 3) ∧
    (∃ X ei ea, grid_edge 2 3 (List.replicate 6 1) = some (X, ei, ea) ∧
      ei.length = 2 * (2 - 1) * 3 + 2 * 2 * (3 - 1)) := by
  refine ⟨⟨le_rfl, by norm_num⟩,
    (stencil_builders_edge_count_and_bounds 2 3 le_rfl (by norm_num)).1, ?_⟩
  refine ⟨_, _, _, rfl, ?_⟩
  exact ((stencil_builders_edge_count_and_bounds 2 3 le_rfl (by norm_num)).2.1
    (List.replicate 6 1) _ _ _ rfl).1

/-- C1: `multi_grid` with `depth = 2`, `n_x = n_y = 4`, the field-weighted
selector `'grid_edge'` and an all-ones field of length 16 succeeds and
returns 20 nodes (16 at level 0 plus 4 at level 1), `num_nodes = 20`, and 88
directed edges: 48 with both endpoints in the level-0 block `[0, 16)`,
8 with both endpoints in the level-1 block `[16, 20)`, 16 fine→coarse and 16
coarse→fine inter-level edges. -/
theorem multi_grid_depth2_4x4_scenario :
    ∃ X ei ea mask num,
      multi_grid 2 4 4 "grid_edge" (List.replicate 16 1) = .ok (X, ei, ea, mask, num) ∧
      X.length = 20 ∧ num = 20 ∧ ei.length = 88 ∧
      ei.countP (fun e : ℕ × ℕ => decide (e.1 < 16) && decide (e.2 < 16)) = 48 ∧
      ei.countP (fun e : ℕ × ℕ => decide (16 ≤ e.1) && decide (16 ≤ e.2)) = 8 ∧
      ei.countP (fun e : ℕ × ℕ => decide (e.1 < 16) && decide (16 ≤ e.2)) = 16 ∧
      ei.countP (fun e : ℕ × ℕ => decide (16 ≤ e.1) && decide (e.2 < 16)) = 16 := by
  refine ⟨_, _, _, _, _, rfl, ?_, ?_, ?_, ?_, ?_, ?_, ?_⟩ <;> rfl

end GraphPDE

namespace GraphPDE

lemma mgStep_aug_eq_edge (n_x n_y depth : ℕ) (params : List ℚ) (l num : ℕ) :
    mgStep n_x n_y depth "grid_edge_aug" params l num =
    mgStep n_x n_y depth "grid_edge" params l num := by
  have h1 : ("grid_edge_aug" : String) ≠ "grid" := by decide
  have h2 : ("grid_edge_aug" : String) ≠ "grid_edge" := by decide
  have h3 : ("grid_edge" : String) ≠ "grid" := by decide
  unfold mgStep
  simp only [h1, h2, h3, if_neg, if_pos, if_false, if_true, eq_self_iff_true,
    ne_eq, not_false_eq_true]

lemma mgBuild_aug_eq_edge (n_x n_y depth : ℕ) (params : List ℚ) :
    ∀ cnt l num, mgBuild n_x n_y depth "grid_edge_aug" params cnt l num =
      mgBuild n_x n_y depth "grid_edge" params cnt l num := by
  intro cnt
  induction cnt with
  | zero => intro l num; rfl
  | succ n ih =>
    intro l num
    unfold mgBuild
    rw [mgStep_aug_eq_edge]
    simp only [ih]

lemma mgStep_zero_of_unsupported {sel : String} (n_x n_y depth : ℕ) (params : List ℚ)
    (num : ℕ) {a : List ℚ}
    (h1 : sel ≠ "grid") (h2 : sel ≠ "grid_edge") (h3 : sel ≠ "grid_edge_aug")
    (hd : downsample params n_x 1 = some a) :
    mgStep n_x n_y depth sel params 0 num = .error .unboundLocalEdgeIndexInner := by
  unfold mgStep
  have hp : (2 : ℕ) ^ 0 = 1 := rfl
  rw [hp, hd]
  simp only [h1, h2, h3, if_neg, if_false, ne_eq, not_false_eq_true]

lemma mgStep_zero_of_grid (n_x n_y depth : ℕ) (params : List ℚ) (num : ℕ) {a : List ℚ}
    (hd : downsample params n_x 1 = some a) :
    mgStep n_x n_y depth "grid" params 0 num = .error .stringNotCallable := by
  unfold mgStep
  have hp : (2 : ℕ) ^ 0 = 1 := rfl
  rw [hp, hd]
  simp

/-- C5 (amended): for every selector outside `{'grid', 'grid_edge',
'grid_edge_aug'}` and every `depth ≥ 1`, as soon as the level-0 `downsample`
succeeds (it runs first), `multi_grid` fails — it never silently defaults —
but the failure is the `UnboundLocalError` on `edge_index_inner` produced by
the fall-through of the `if`/`elif` dispatch, an error that does not name the
offending selector, not an "unknown variant" error. -/
theorem multi_grid_unsupported_selector {sel : String} (depth n_x n_y : ℕ)
    (params : List ℚ) {a : List ℚ}
    (h1 : sel ≠ "grid") (h2 : sel ≠ "grid_edge") (h3 : sel ≠ "grid_edge_aug")
    (hdepth : 1 ≤ depth) (hd : downsample params n_x 1 = some a) :
    multi_grid depth n_x n_y sel params = .error .unboundLocalEdgeIndexInner := by
  obtain ⟨c, rfl⟩ : ∃ c, depth = c + 1 := ⟨depth - 1, by omega⟩
  unfold multi_grid
  unfold mgBuild
  rw [mgStep_zero_of_unsupported n_x n_y (c + 1) params 0 h1 h2 h3 hd]

theorem multi_grid_unsupported_selector_witness :
    (("cheese" : String) ≠ "grid" ∧ ("cheese" : String) ≠ "grid_edge" ∧
      ("cheese" : String) ≠ "grid_edge_aug" ∧ 1 ≤ 1 ∧
      downsample [(1 : ℚ)] 1 1 = some [(1 : ℚ)]) ∧
    multi_grid 1 1 1 "cheese" [(1 : ℚ)] = .error .unboundLocalEdgeIndexInner := by
  refine ⟨⟨by decide, by decide, by decide, le_rfl, rfl⟩, ?_⟩
  exact multi_grid_unsupported_selector 1 1 1 [(1 : ℚ)]
    (by decide) (by decide) (by decide) le_rfl rfl

/-- C5 (counterexample to the claim as stated): at the concrete unsupported
selector `"cheese"`, `multi_grid` fails with the unbound-local error, which is
not an "unknown variant" error naming the selector. -/
theorem multi_grid_unknown_variant_counterexample :
    multi_grid 1 1 1 "cheese" [(1 : ℚ)] = .error .unboundLocalEdgeIndexInner ∧
    multi_grid 1 1 1 "cheese" [(1 : ℚ)] ≠ .error (.unknownVariant "cheese") := by
  have h : multi_grid 1 1 1 "cheese" [(1 : ℚ)] = .error .unboundLocalEdgeIndexInner := rfl
  refine ⟨h, ?_⟩
  rw [h]
  simp

end GraphPDE

namespace GraphPDE

lemma mgStep_zero_depth1_edge (n_x n_y : ℕ) (params : List ℚ) {a : List ℚ}
    {X : List (ℚ × ℚ)} {ei : List (ℕ × ℕ)} {ea : List Q3}
    (hd : downsample params n_x 1 = some a)
    (hg : grid_edge n_y n_x a = some (X, ei, ea)) :
    mgStep n_x n_y 1 "grid_edge" params 0 0 = .ok (X, ei, ea, n_x * n_y) := by
  have h3 : ("grid_edge" : String) ≠ "grid" := by decide
  unfold mgStep
  have hp : (2 : ℕ) ^ 0 = 1 := rfl
  simp only [hp, Nat.div_one, hd, h3, if_neg, if_pos, if_false, if_true,
    eq_self_iff_true, ne_eq, not_false_eq_true, hg]
  simp

lemma multi_grid_grid_selector_error (depth n_x n_y : ℕ) (params : List ℚ) {a : List ℚ}
    (hdepth : 1 ≤ depth) (hd : downsample params n_x 1 = some a) :
    multi_grid depth n_x n_y "grid" params = .error .stringNotCallable := by
  obtain ⟨c, rfl⟩ : ∃ c, depth = c + 1 := ⟨depth - 1, by omega⟩
  unfold multi_grid mgBuild
  rw [mgStep_zero_of_grid n_x n_y (c + 1) params 0 hd]

/-- C4 (amended): the selector dispatch of `multi_grid` is: `'grid_edge'`
builds every level with `grid_edge`; `'grid_edge_aug'` *also* dispatches to
`grid_edge`, not to `grid_edge_aug` (the two selectors produce identical
results); and `'grid'` does not reach the plain-grid builder at all — the
parameter `grid` shadows the builder function, so the string itself is
called and the first level fails with a `TypeError` (as soon as the level-0
`downsample`, which runs first, has succeeded). For `depth = 1` the
`'grid_edge'` run returns exactly the `grid_edge(n_y, n_x, a)` output
(zero offset), the mask `range(n_x*n_y)` and `num_nodes = n_x*n_y`. -/
theorem multi_grid_selector_dispatch :
    (∀ (depth n_x n_y : ℕ) (params : List ℚ),
      multi_grid depth n_x n_y "grid_edge_aug" params =
      multi_grid depth n_x n_y "grid_edge" params) ∧
    (∀ (depth n_x n_y : ℕ) (params a : List ℚ), 1 ≤ depth →
      downsample params n_x 1 = some a →
      multi_grid depth n_x n_y "grid" params = .error .stringNotCallable) ∧
    (∀ (n_x n_y : ℕ) (params a : List ℚ) X ei ea,
      downsample params n_x 1 = some a →
      grid_edge n_y n_x a = some (X, ei, ea) →
      multi_grid 1 n_x n_y "grid_edge" params =
        .ok (X, ei, ea, List.range (n_x * n_y), n_x * n_y)) := by
  refine ⟨?_, ?_, ?_⟩
  · intro depth n_x n_y params
    unfold multi_grid
    rw [mgBuild_aug_eq_edge]
  · intro depth n_x n_y params a hdepth hd
    exact multi_grid_grid_selector_error depth n_x n_y params hdepth hd
  · intro n_x n_y params a X ei ea hd hg
    unfold multi_grid mgBuild
    rw [mgStep_zero_depth1_edge n_x n_y params hd hg]
    unfold mgBuild
    simp

theorem multi_grid_selector_dispatch_witness :
    (1 ≤ 1 ∧ downsample (List.replicate 4 (1 : ℚ)) 2 1 = some (List.replicate 4 1)) ∧
    multi_grid 1 2 2 "grid" (List.replicate 4 (1 : ℚ)) = .error .stringNotCallable ∧
    multi_grid 1 2 2 "grid_edge" (List.replicate 4 (1 : ℚ)) =
      .ok (gridPoints 2 2, stencilEdgeIndex 2 2, gridEdgeAttr 2 2 (List.replicate 4 1),
        List.range 4, 4) := by
  refine ⟨⟨le_rfl, rfl⟩, ?_, ?_⟩
  · exact multi_grid_selector_dispatch.2.1 1 2 2 (List.replicate 4 1)
      (List.replicate 4 1) le_rfl rfl
  · exact multi_grid_selector_dispatch.2.2 2 2 (List.replicate 4 1)
      (List.replicate 4 1) _ _ _ rfl rfl

/-- C4 (counterexample to the claim as stated): selector `'grid'` does not
build with the plain-grid builder — it raises the shadowing `TypeError`
(while the plain builder `grid 2 2` itself is total); and selector
`'grid_edge_aug'` produces exactly the `'grid_edge'` output (3-wide
features), not a `grid_edge_aug` output. -/
theorem multi_grid_selector_counterexample :
    multi_grid 1 2 2 "grid" (List.replicate 4 (1 : ℚ)) = .error .stringNotCallable ∧
    multi_grid 2 4 4 "grid_edge_aug" (List.replicate 16 (1 : ℚ)) =
      multi_grid 2 4 4 "grid_edge" (List.replicate 16 (1 : ℚ)) :=
  ⟨rfl, rfl⟩

end GraphPDE

namespace GraphPDE

lemma ceil_div_eq_div_of_dvd {k l : ℕ} (hl : 1 ≤ l) (hdvd : l ∣ k) :
    (k + l - 1) / l = k / l := by
  obtain ⟨c, rfl⟩ := hdvd
  rw [Nat.mul_comm l c]
  have h1 : c * l + l - 1 = l - 1 + c * l := by omega
  rw [h1, Nat.add_mul_div_right _ _ (by omega : 0 < l),
    Nat.div_eq_of_lt (by omega : l - 1 < l), Nat.zero_add,
    Nat.mul_div_cancel _ (by omega : 0 < l)]

/-- C8 (counterexample to the claim as stated): for stride `l = 2` and
`grid_size = 5` (so `l ∤ k`), the slicing keeps `⌈5/2⌉ = 3` rows and columns
per batch item but the final reshape expects a multiple of `(5//2)² = 4`,
so `downsample` raises a `ValueError` and yields no result at all. -/
theorem downsample_counterexample :
    ¬ ∃ out, downsample (List.replicate 25 (1 : ℚ)) 5 2 = some out := by
  intro h
  obtain ⟨out, hout⟩ := h
  have hn : downsample (List.replicate 25 (1 : ℚ)) 5 2 = none := rfl
  rw [hn] at hout
  exact Option.noConfusion hout

/-- C8 (amended): for every stride `l ≥ 1` that *divides* `grid_size = k ≥ 1`
and every flat input whose length is a multiple of `k²`, `downsample`
succeeds and yields, per batch item, a flattened `(k/l)×(k/l)` result whose
entry at position `(p, q)` equals the input entry at position `(p·l, q·l)`
of that item's `k×k` field (strided subsample, no averaging). -/
theorem downsample_strided_subsample (data : List ℚ) (k l : ℕ)
    (hk : 1 ≤ k) (hl : 1 ≤ l) (hdvd : l ∣ k) (hlen : k ^ 2 ∣ data.length) :
    ∃ out, downsample data k l = some out ∧
      out.length = data.length / k ^ 2 * (k / l) ^ 2 ∧
      ∀ b p q, b < data.length / k ^ 2 → p < k / l → q < k / l →
        out.getD (b * (k / l) ^ 2 + p * (k / l) + q) 0 =
        data.getD (b * k ^ 2 + p * l * k + q * l) 0 := by
  have hk0 : ¬(k = 0) := by omega
  have hl0 : ¬(l = 0) := by omega
  have hmod : data.length % k ^ 2 = 0 := by
    obtain ⟨B, hB⟩ := hlen
    rw [hB]
    exact Nat.mul_mod_right _ _
  have hlk : l ≤ k := Nat.le_of_dvd (by omega) hdvd
  have hc1 : 1 ≤ k / l := (Nat.one_le_div_iff (by omega)).mpr hlk
  have hm : (k + l - 1) / l = k / l := ceil_div_eq_div_of_dvd hl hdvd
  have hw : ¬((k / l) ^ 2 = 0) := by
    have : k / l ≠ 0 := by omega
    positivity
  have key : downsample data k l = some
      ((List.range (data.length / k ^ 2 * (k / l * (k / l)))).map (fun t =>
        data.getD (t / (k / l * (k / l)) * k ^ 2 +
          t % (k / l * (k / l)) / (k / l) * l * k + t % (k / l) * l) 0)) := by
    unfold downsample
    rw [if_neg hk0, if_neg (by simp [hmod] : ¬(data.length % k ^ 2 ≠ 0)), if_neg hl0]
    simp only [hm]
    rw [if_neg hw, if_neg (by simp [pow_two, Nat.mul_assoc, Nat.mul_mod_left] :
      ¬(data.length / k ^ 2 * (k / l) ^ 2 % (k / l) ^ 2 ≠ 0))]
  refine ⟨_, key, ?_, ?_⟩
  · rw [List.length_map, List.length_range]
    ring
  · intro b p q hb hp hq
    have hc0 : 0 < k / l := by omega
    have hpq : p * (k / l) + q < k / l * (k / l) := by
      calc p * (k / l) + q < p * (k / l) + (k / l) := by omega
        _ = (p + 1) * (k / l) := by ring
        _ ≤ k / l * (k / l) := Nat.mul_le_mul_right _ (by omega)
    have ht : b * (k / l) ^ 2 + p * (k / l) + q <
        data.length / k ^ 2 * (k / l * (k / l)) := by
      calc b * (k / l) ^ 2 + p * (k / l) + q
          = b * (k / l * (k / l)) + (p * (k / l) + q) := by ring
        _ < b * (k / l * (k / l)) + k / l * (k / l) := by omega
        _ = (b + 1) * (k / l * (k / l)) := by ring
        _ ≤ data.length / k ^ 2 * (k / l * (k / l)) := Nat.mul_le_mul_right _ (by omega)
    have hteq : b * (k / l) ^ 2 + p * (k / l) + q =
        p * (k / l) + q + b * (k / l * (k / l)) := by ring
    have hdiv1 : (b * (k / l) ^ 2 + p * (k / l) + q) / (k / l * (k / l)) = b := by
      rw [hteq, Nat.add_mul_div_right _ _ (by positivity), Nat.div_eq_of_lt hpq,
        Nat.zero_add]
    have hmod1 : (b * (k / l) ^ 2 + p * (k / l) + q) % (k / l * (k / l)) =
        p * (k / l) + q := by
      rw [hteq, Nat.add_mul_mod_self_right, Nat.mod_eq_of_lt hpq]
    have hdiv2 : (p * (k / l) + q) / (k / l) = p := by
      rw [Nat.add_comm, Nat.add_mul_div_right _ _ hc0, Nat.div_eq_of_lt hq, Nat.zero_add]
    have hmod2 : (b * (k / l) ^ 2 + p * (k / l) + q) % (k / l) = q := by
      have h2 : b * (k / l) ^ 2 + p * (k / l) + q = q + (b * (k / l) + p) * (k / l) := by
        ring
      rw [h2, Nat.add_mul_mod_self_right, Nat.mod_eq_of_lt hq]
    rw [List.getD_eq_getElem?_getD, List.getElem?_map, List.getElem?_range ht]
    simp only [Option.map_some', Option.getD_some]
    rw [hdiv1, hmod1, hdiv2, hmod2]

end GraphPDE

namespace GraphPDE

theorem downsample_strided_subsample_witness :
    ((1 : ℕ) ≤ 4 ∧ (1 : ℕ) ≤ 2 ∧ (2 : ℕ) ∣ 4 ∧
      (4 : ℕ) ^ 2 ∣ (List.replicate 16 (1 : ℚ)).length) ∧
    ∃ out, downsample (List.replicate 16 (1 : ℚ)) 4 2 = some out ∧
      out.length = (List.replicate 16 (1 : ℚ)).length / 4 ^ 2 * (4 / 2) ^ 2 ∧
      ∀ b p q, b < (List.replicate 16 (1 : ℚ)).length / 4 ^ 2 → p < 4 / 2 → q < 4 / 2 →
        out.getD (b * (4 / 2) ^ 2 + p * (4 / 2) + q) 0 =
        (List.replicate 16 (1 : ℚ)).getD (b * 4 ^ 2 + p * 2 * 4 + q * 2) 0 :=
  ⟨⟨by norm_num, by norm_num, by norm_num, by rw [List.length_replicate]; norm_num⟩,
    downsample_strided_subsample (List.replicate 16 1) 4 2 (by norm_num) (by norm_num)
      (by norm_num) (by rw [List.length_replicate]; norm_num)⟩

lemma SwapPaired.append {α : Type} {sw : α → α} {es es' : List (ℕ × ℕ)} {bs bs' : List α}
    (h : SwapPaired sw es bs) (h' : SwapPaired sw es' bs') :
    SwapPaired sw (es ++ es') (bs ++ bs') := by
  induction h with
  | nil => simpa using h'
  | cons i j a h ih => simpa using SwapPaired.cons i j a ih

lemma swapPaired_flatMap {α : Type} {sw : α → α} {l : List ℕ}
    {f : ℕ → List (ℕ × ℕ)} {g : ℕ → List α}
    (h : ∀ y ∈ l, SwapPaired sw (f y) (g y)) :
    SwapPaired sw (l.flatMap f) (l.flatMap g) := by
  induction l with
  | nil => simp only [List.flatMap_nil]; exact SwapPaired.nil
  | cons y ys ih =>
    simp only [List.flatMap_cons]
    exact (h y (List.mem_cons_self y ys)).append
      (ih fun z hz => h z (List.mem_cons_of_mem y hz))

lemma swapPaired_gridAttr (n_x n_y : ℕ) :
    SwapPaired (fun v : Q3 => (-v.1, -v.2.1, -v.2.2))
      (stencilEdgeIndex n_x n_y) (gridAttr n_x n_y) := by
  unfold stencilEdgeIndex gridAttr
  refine swapPaired_flatMap (fun y _ => ?_)
  refine swapPaired_flatMap (fun x _ => ?_)
  refine SwapPaired.append ?_ ?_
  · by_cases hx : x ≠ n_x - 1
    · rw [if_pos hx, if_pos hx]
      have h1 : [((1 : ℚ), (0 : ℚ), (0 : ℚ)), ((-1 : ℚ), (0 : ℚ), (0 : ℚ))] =
          [((1 : ℚ), (0 : ℚ), (0 : ℚ)),
           (fun v : Q3 => (-v.1, -v.2.1, -v.2.2)) ((1 : ℚ), (0 : ℚ), (0 : ℚ))] := by
        norm_num
      rw [h1]
      exact SwapPaired.cons _ _ _ SwapPaired.nil
    · rw [if_neg hx, if_neg hx]
      exact SwapPaired.nil
  · by_cases hy : y ≠ n_y - 1
    · rw [if_pos hy, if_pos hy]
      have h1 : [((0 : ℚ), (1 : ℚ), (0 : ℚ)), ((0 : ℚ), (-1 : ℚ), (0 : ℚ))] =
          [((0 : ℚ), (1 : ℚ), (0 : ℚ)),
           (fun v : Q3 => (-v.1, -v.2.1, -v.2.2)) ((0 : ℚ), (1 : ℚ), (0 : ℚ))] := by
        norm_num
      rw [h1]
      exact SwapPaired.cons _ _ _ SwapPaired.nil
    · rw [if_neg hy, if_neg hy]
      exact SwapPaired.nil

lemma swapPaired_gridEdgeAttr (n_x n_y : ℕ) (a : List ℚ) :
    SwapPaired (fun v : Q3 => (v.1, v.2.2, v.2.1))
      (stencilEdgeIndex n_x n_y) (gridEdgeAttr n_x n_y a) := by
  unfold stencilEdgeIndex gridEdgeAttr
  refine swapPaired_flatMap (fun y _ => ?_)
  refine swapPaired_flatMap (fun x _ => ?_)
  refine SwapPaired.append ?_ ?_
  · by_cases hx : x ≠ n_x - 1
    · rw [if_pos hx, if_pos hx]
      exact SwapPaired.cons _ _ _ SwapPaired.nil
    · rw [if_neg hx, if_neg hx]
      exact SwapPaired.nil
  · by_cases hy : y ≠ n_y - 1
    · rw [if_pos hy, if_pos hy]
      exact SwapPaired.cons _ _ _ SwapPaired.nil
    · rw [if_neg hy, if_neg hy]
      exact SwapPaired.nil

lemma swapPaired_gridEdgeAugAttr (sq ex : ℚ → ℚ) (n_x n_y : ℕ) (a : List ℚ) :
    SwapPaired (fun v : Q7 => (v.1, v.2.2.1, v.2.1, v.2.2.2))
      (stencilEdgeIndex n_x n_y) (gridEdgeAugAttr sq ex n_x n_y a) := by
  unfold stencilEdgeIndex gridEdgeAugAttr
  refine swapPaired_flatMap (fun y _ => ?_)
  refine swapPaired_flatMap (fun x _ => ?_)
  refine SwapPaired.append ?_ ?_
  · by_cases hx : x ≠ n_x - 1
    · rw [if_pos hx, if_pos hx]
      exact SwapPaired.cons _ _ _ SwapPaired.nil
    · rw [if_neg hx, if_neg hx]
      exact SwapPaired.nil
  · by_cases hy : y ≠ n_y - 1
    · rw [if_pos hy, if_pos hy]
      exact SwapPaired.cons _ _ _ SwapPaired.nil
    · rw [if_neg hy, if_neg hy]
      exact SwapPaired.nil

/-- C6: the stencil builders produce their edges in forward/reverse pairs
`(i,j)`, `(j,i)` whose feature vectors are related by the direction-swap
rule: for `grid` the reverse feature is the componentwise negation of the
forward one (the signed offset flips), and for `grid_edge` /
`grid_edge_aug` the reverse feature swaps the field-value entries at
positions 1 and 2 and leaves every other entry unchanged. -/
theorem stencil_edge_pair_swap_rule :
    (∀ n_x n_y : ℕ, SwapPaired (fun v : Q3 => (-v.1, -v.2.1, -v.2.2))
      (grid n_x n_y).2.1 (grid n_x n_y).2.2) ∧
    (∀ (n_x n_y : ℕ) (a : List ℚ) X ei ea, grid_edge n_x n_y a = some (X, ei, ea) →
      SwapPaired (fun v : Q3 => (v.1, v.2.2, v.2.1)) ei ea) ∧
    (∀ (sq ex : ℚ → ℚ) (n_x n_y : ℕ) (a : List ℚ) X ei ea,
      grid_edge_aug sq ex n_x n_y a = some (X, ei, ea) →
      SwapPaired (fun v : Q7 => (v.1, v.2.2.1, v.2.1, v.2.2.2)) ei ea) := by
  refine ⟨fun n_x n_y => swapPaired_gridAttr n_x n_y, ?_, ?_⟩
  · intro n_x n_y a X ei ea h
    obtain ⟨-, hei, hea, -⟩ := grid_edge_eq_some h
    subst hei; subst hea
    exact swapPaired_gridEdgeAttr n_x n_y a
  · intro sq ex n_x n_y a X ei ea h
    obtain ⟨-, hei, hea, -⟩ := grid_edge_aug_eq_some h
    subst hei; subst hea
    exact swapPaired_gridEdgeAugAttr sq ex n_x n_y a

theorem stencil_edge_pair_swap_rule_witness :
    (∃ X ei ea, grid_edge 2 2 [(1 : ℚ), 2, 3, 4] = some (X, ei, ea) ∧
      SwapPaired (fun v : Q3 => (v.1, v.2.2, v.2.1)) ei ea) ∧
    (∃ X ei ea, grid_edge_aug id id 2 2 [(1 : ℚ), 2, 3, 4] = some (X, ei, ea) ∧
      SwapPaired (fun v : Q7 => (v.1, v.2.2.1, v.2.1, v.2.2.2)) ei ea) := by
  constructor
  · refine ⟨_, _, _, rfl, ?_⟩
    exact stencil_edge_pair_swap_rule.2.1 2 2 [(1 : ℚ), 2, 3, 4] _ _ _ rfl
  · refine ⟨_, _, _, rfl, ?_⟩
    exact stencil_edge_pair_swap_rule.2.2 id id 2 2 [(1 : ℚ), 2, 3, 4] _ _ _ rfl

end GraphPDE

namespace GraphPDE

lemma aligned_nil {α : Type} (P : ℕ × ℕ → α → Prop) : Aligned P [] [] :=
  ⟨rfl, fun k e a he _ => by simp at he⟩

lemma aligned_pair {α : Type} {P : ℕ × ℕ → α → Prop} {e1 e2 : ℕ × ℕ} {v1 v2 : α}
    (h1 : P e1 v1) (h2 : P e2 v2) : Aligned P [e1, e2] [v1, v2] := by
  refine ⟨rfl, fun k e v he hv => ?_⟩
  match k with
  | 0 =>
    simp only [List.getElem?_cons_zero, Option.some.injEq] at he hv
    subst he; subst hv; exact h1
  | 1 =>
    simp only [List.getElem?_cons_succ, List.getElem?_cons_zero, Option.some.injEq] at he hv
    subst he; subst hv; exact h2
  | (n + 2) =>
    simp at he

lemma aligned_append {α : Type} {P : ℕ × ℕ → α → Prop} {es es' : List (ℕ × ℕ)}
    {bs bs' : List α} (h : Aligned P es bs) (h' : Aligned P es' bs') :
    Aligned P (es ++ es') (bs ++ bs') := by
  obtain ⟨hlen, hP⟩ := h
  obtain ⟨hlen', hP'⟩ := h'
  refine ⟨by simp [hlen, hlen'], fun k e v he hv => ?_⟩
  by_cases hk : k < es.length
  · rw [List.getElem?_append_left hk] at he
    rw [List.getElem?_append_left (by omega : k < bs.length)] at hv
    exact hP k e v he hv
  · rw [List.getElem?_append_right (by omega : es.length ≤ k)] at he
    rw [List.getElem?_append_right (by omega : bs.length ≤ k)] at hv
    have hkk : k - bs.length = k - es.length := by omega
    rw [hkk] at hv
    exact hP' (k - es.length) e v he hv

lemma aligned_flatMap {α : Type} {P : ℕ × ℕ → α → Prop} {l : List ℕ}
    {f : ℕ → List (ℕ × ℕ)} {g : ℕ → List α}
    (h : ∀ y ∈ l, Aligned P (f y) (g y)) :
    Aligned P (l.flatMap f) (l.flatMap g) := by
  induction l with
  | nil => simp only [List.flatMap_nil]; exact aligned_nil P
  | cons y ys ih =>
    simp only [List.flatMap_cons]
    exact aligned_append (h y (List.mem_cons_self y ys))
      (ih fun z hz => h z (List.mem_cons_of_mem y hz))

lemma fieldIndex_cell {n_x : ℕ} (n_y : ℕ) {x : ℕ} (y : ℕ) (hx : x < n_x) :
    fieldIndex n_x n_y (y * n_x + x) = x * n_y + y := by
  unfold fieldIndex
  have h0 : 0 < n_x := by omega
  have h1 : y * n_x + x = x + y * n_x := by ring
  rw [h1, Nat.add_mul_mod_self_right, Nat.mod_eq_of_lt hx,
    Nat.add_mul_div_right _ _ h0, Nat.div_eq_of_lt hx, Nat.zero_add]

lemma aligned_gridEdgeAttr (n_x n_y : ℕ) (a : List ℚ) :
    Aligned (fun e (v : Q3) => v.2.1 = a.getD (fieldIndex n_x n_y e.1) 0 ∧
      v.2.2 = a.getD (fieldIndex n_x n_y e.2) 0)
      (stencilEdgeIndex n_x n_y) (gridEdgeAttr n_x n_y a) := by
  unfold stencilEdgeIndex gridEdgeAttr
  refine aligned_flatMap (fun y hy => ?_)
  rw [List.mem_range] at hy
  refine aligned_flatMap (fun x hx => ?_)
  rw [List.mem_range] at hx
  have hfi : fieldIndex n_x n_y (y * n_x + x) = x * n_y + y := fieldIndex_cell n_y y hx
  refine aligned_append ?_ ?_
  · by_cases hxe : x ≠ n_x - 1
    · rw [if_pos hxe, if_pos hxe]
      have hx1 : x + 1 < n_x := by omega
      have hfj : fieldIndex n_x n_y (y * n_x + x + 1) = (x + 1) * n_y + y := by
        have h2 : y * n_x + x + 1 = y * n_x + (x + 1) := by ring
        rw [h2]; exact fieldIndex_cell n_y y hx1
      refine aligned_pair ?_ ?_
      · exact ⟨by simp [aVal, hfi], by simp [aVal, hfj]⟩
      · exact ⟨by simp [aVal, hfj], by simp [aVal, hfi]⟩
    · rw [if_neg hxe, if_neg hxe]; exact aligned_nil _
  · by_cases hye : y ≠ n_y - 1
    · rw [if_pos hye, if_pos hye]
      have hfj : fieldIndex n_x n_y (y * n_x + x + n_x) = x * n_y + (y + 1) := by
        have h2 : y * n_x + x + n_x = (y + 1) * n_x + x := by ring
        rw [h2]; exact fieldIndex_cell n_y (y + 1) hx
      refine aligned_pair ?_ ?_
      · exact ⟨by simp [aVal, hfi], by simp [aVal, hfj]⟩
      · exact ⟨by simp [aVal, hfj], by simp [aVal, hfi]⟩
    · rw [if_neg hye, if_neg hye]; exact aligned_nil _

lemma aligned_gridEdgeAugAttr (sq ex : ℚ → ℚ) (n_x n_y : ℕ) (a : List ℚ) :
    Aligned (fun e (v : Q7) => v.2.1 = a.getD (fieldIndex n_x n_y e.1) 0 ∧
      v.2.2.1 = a.getD (fieldIndex n_x n_y e.2) 0)
      (stencilEdgeIndex n_x n_y) (gridEdgeAugAttr sq ex n_x n_y a) := by
  unfold stencilEdgeIndex gridEdgeAugAttr
  refine aligned_flatMap (fun y hy => ?_)
  rw [List.mem_range] at hy
  refine aligned_flatMap (fun x hx => ?_)
  rw [List.mem_range] at hx
  have hfi : fieldIndex n_x n_y (y * n_x + x) = x * n_y + y := fieldIndex_cell n_y y hx
  refine aligned_append ?_ ?_
  · by_cases hxe : x ≠ n_x - 1
    · rw [if_pos hxe, if_pos hxe]
      have hx1 : x + 1 < n_x := by omega
      have hfj : fieldIndex n_x n_y (y * n_x + x + 1) = (x + 1) * n_y + y := by
        have h2 : y * n_x + x + 1 = y * n_x + (x + 1) := by ring
        rw [h2]; exact fieldIndex_cell n_y y hx1
      refine aligned_pair ?_ ?_
      · exact ⟨by simp [aVal, hfi], by simp [aVal, hfj]⟩
      · exact ⟨by simp [aVal, hfj], by simp [aVal, hfi]⟩
    · rw [if_neg hxe, if_neg hxe]; exact aligned_nil _
  · by_cases hye : y ≠ n_y - 1
    · rw [if_pos hye, if_pos hye]
      have hfj : fieldIndex n_x n_y (y * n_x + x + n_x) = x * n_y + (y + 1) := by
        have h2 : y * n_x + x + n_x = (y + 1) * n_x + x := by ring
        rw [h2]; exact fieldIndex_cell n_y (y + 1) hx
      refine aligned_pair ?_ ?_
      · exact ⟨by simp [aVal, hfi], by simp [aVal, hfj]⟩
      · exact ⟨by simp [aVal, hfj], by simp [aVal, hfi]⟩
    · rw [if_neg hye, if_neg hye]; exact aligned_nil _

/-- C10: in `grid_edge` and `grid_edge_aug`, the field value used as the
endpoint value of node `i = y·n_x + x` is `a.reshape(n_x, n_y)[x, y]`, i.e.
flat element `x·n_y + y = fieldIndex n_x n_y i` of the input field — the
field lattice is read transposed with respect to the node ordering. The
first conjunct is the index arithmetic, the other two state that in every
feature vector entry 1 is the field at `fieldIndex` of the source node and
entry 2 the field at `fieldIndex` of the target node. -/
theorem field_indexing_transposed :
    (∀ n_x n_y x y : ℕ, x < n_x →
      fieldIndex n_x n_y (y * n_x + x) = x * n_y + y) ∧
    (∀ (n_x n_y : ℕ) (a : List ℚ) X ei ea, grid_edge n_x n_y a = some (X, ei, ea) →
      Aligned (fun e (v : Q3) => v.2.1 = a.getD (fieldIndex n_x n_y e.1) 0 ∧
        v.2.2 = a.getD (fieldIndex n_x n_y e.2) 0) ei ea) ∧
    (∀ (sq ex : ℚ → ℚ) (n_x n_y : ℕ) (a : List ℚ) X ei ea,
      grid_edge_aug sq ex n_x n_y a = some (X, ei, ea) →
      Aligned (fun e (v : Q7) => v.2.1 = a.getD (fieldIndex n_x n_y e.1) 0 ∧
        v.2.2.1 = a.getD (fieldIndex n_x n_y e.2) 0) ei ea) := by
  refine ⟨fun n_x n_y x y hx => fieldIndex_cell n_y y hx, ?_, ?_⟩
  · intro n_x n_y a X ei ea h
    obtain ⟨-, hei, hea, -⟩ := grid_edge_eq_some h
    subst hei; subst hea
    exact aligned_gridEdgeAttr n_x n_y a
  · intro sq ex n_x n_y a X ei ea h
    obtain ⟨-, hei, hea, -⟩ := grid_edge_aug_eq_some h
    subst hei; subst hea
    exact aligned_gridEdgeAugAttr sq ex n_x n_y a

theorem field_indexing_transposed_witness :
    ((0 : ℕ) < 2 ∧ fieldIndex 2 3 (1 * 2 + 0) = 0 * 3 + 1) ∧
    (∃ X ei ea, grid_edge 2 3 [(1 : ℚ), 2, 3, 4, 5, 6] = some (X, ei, ea) ∧
      Aligned (fun e (v : Q3) => v.2.1 = [(1 : ℚ), 2, 3, 4, 5, 6].getD (fieldIndex 2 3 e.1) 0 ∧
        v.2.2 = [(1 : ℚ), 2, 3, 4, 5, 6].getD (fieldIndex 2 3 e.2) 0) ei ea) := by
  constructor
  · exact ⟨by norm_num, field_indexing_transposed.1 2 3 0 1 (by norm_num)⟩
  · refine ⟨_, _, _, rfl, ?_⟩
    exact field_indexing_transposed.2.1 2 3 [(1 : ℚ), 2, 3, 4, 5, 6] _ _ _ rfl

end GraphPDE

namespace GraphPDE

lemma mem_ball_connectivity {pts : List (List ℝ)} {r : ℝ} {i j : ℕ} :
    (i, j) ∈ ball_connectivity pts r ↔
    i < pts.length ∧ j < pts.length ∧ pairDist (pts.getD i []) (pts.getD j []) ≤ r := by
  unfold ball_connectivity
  simp only [List.mem_flatMap, List.mem_filterMap, List.mem_range]
  constructor
  · rintro ⟨i', hi', j', hj', hij⟩
    split at hij
    · next hd =>
      injection hij with hij
      injection hij with h1 h2
      subst h1; subst h2
      exact ⟨hi', hj', hd⟩
    · exact absurd hij (by simp)
  · rintro ⟨hi, hj, hd⟩
    exact ⟨i, hi, j, hj, by rw [if_pos hd]⟩

lemma zip_self_fst_eq_snd {p : List ℝ} : ∀ c ∈ p.zip p, c.1 = c.2 := by
  induction p with
  | nil => simp
  | cons a q ih =>
    intro c hc
    rw [List.zip_cons_cons, List.mem_cons] at hc
    rcases hc with rfl | hc
    · rfl
    · exact ih c hc

lemma pairDist_self (p : List ℝ) : pairDist p p = 0 := by
  unfold pairDist
  have hsum : (((p.zip p).map (fun c => (c.1 - c.2) ^ 2)).sum : ℝ) = 0 := by
    apply List.sum_eq_zero
    intro v hv
    rw [List.mem_map] at hv
    obtain ⟨c, hc, rfl⟩ := hv
    rw [zip_self_fst_eq_snd c hc]
    ring
  rw [hsum, Real.sqrt_zero]

lemma pairDist_comm (p q : List ℝ) : pairDist p q = pairDist q p := by
  unfold pairDist
  congr 1
  have hzip : q.zip p = (p.zip q).map Prod.swap := by
    induction p generalizing q with
    | nil => cases q <;> simp
    | cons a p ih =>
      cases q with
      | nil => simp
      | cons b q =>
        rw [List.zip_cons_cons, List.zip_cons_cons, List.map_cons, ih q]
        rfl
  rw [hzip, List.map_map]
  apply congrArg
  apply List.map_congr_left
  intro c _
  simp only [Function.comp_apply, Prod.fst_swap, Prod.snd_swap]
  ring

/-- C7: for every list of sampled points and radius `r ≥ 0`, the edge list
of `ball_connectivity` contains `(i, j)` (for valid indices) iff the
Euclidean distance between points `i` and `j` is at most `r` (inclusive
threshold); the relation is symmetric and contains every self pair. -/
theorem ball_connectivity_membership (pts : List (List ℝ)) (r : ℝ) (hr : 0 ≤ r)
    (i j : ℕ) (hi : i < pts.length) (hj : j < pts.length) :
    ((i, j) ∈ ball_connectivity pts r ↔
      pairDist (pts.getD i []) (pts.getD j []) ≤ r) ∧
    ((i, j) ∈ ball_connectivity pts r ↔ (j, i) ∈ ball_connectivity pts r) ∧
    (i, i) ∈ ball_connectivity pts r := by
  refine ⟨?_, ?_, ?_⟩
  · rw [mem_ball_connectivity]
    exact ⟨fun h => h.2.2, fun h => ⟨hi, hj, h⟩⟩
  · rw [mem_ball_connectivity, mem_ball_connectivity,
      pairDist_comm (pts.getD i []) (pts.getD j [])]
    exact ⟨fun h => ⟨hj, hi, h.2.2⟩, fun h => ⟨hi, hj, h.2.2⟩⟩
  · rw [mem_ball_connectivity]
    refine ⟨hi, hi, ?_⟩
    rw [pairDist_self]
    exact hr

theorem ball_connectivity_membership_witness :
    ((0 : ℝ) ≤ 1 ∧ (0 : ℕ) < ([[(0 : ℝ)], [(1 : ℝ)]] : List (List ℝ)).length ∧
      (1 : ℕ) < ([[(0 : ℝ)], [(1 : ℝ)]] : List (List ℝ)).length) ∧
    (((0, 1) ∈ ball_connectivity [[(0 : ℝ)], [(1 : ℝ)]] 1 ↔
      pairDist (([[(0 : ℝ)], [(1 : ℝ)]] : List (List ℝ)).getD 0 [])
        (([[(0 : ℝ)], [(1 : ℝ)]] : List (List ℝ)).getD 1 []) ≤ 1) ∧
    ((0, 1) ∈ ball_connectivity [[(0 : ℝ)], [(1 : ℝ)]] 1 ↔
      (1, 0) ∈ ball_connectivity [[(0 : ℝ)], [(1 : ℝ)]] 1) ∧
    (0, 0) ∈ ball_connectivity [[(0 : ℝ)], [(1 : ℝ)]] 1) :=
  ⟨⟨by norm_num, by simp, by simp⟩,
    ball_connectivity_membership [[(0 : ℝ)], [(1 : ℝ)]] 1 (by norm_num) 0 1
      (by simp) (by simp)⟩

end GraphPDE

namespace GraphPDE

lemma even_level_div {n_x depth l : ℕ} (h : 2 ^ (depth - 1) ∣ n_x)
    (hl : l + 1 ≤ depth - 1) : 2 ∣ n_x / 2 ^ l := by
  obtain ⟨c, rfl⟩ := h
  obtain ⟨e, he, he1⟩ : ∃ e, depth - 1 = l + e ∧ 1 ≤ e := ⟨depth - 1 - l, by omega, by omega⟩
  rw [he, pow_add, Nat.mul_assoc,
    Nat.mul_div_cancel_left _ (by positivity : (0 : ℕ) < 2 ^ l)]
  exact Dvd.dvd.mul_right (dvd_pow_self 2 (by omega : e ≠ 0)) c

lemma level_div_succ (n_x l : ℕ) : n_x / 2 ^ l / 2 = n_x / 2 ^ (l + 1) := by
  rw [Nat.div_div_eq_div_mul, pow_succ]

lemma reshapeRows_range (R C : ℕ) :
    reshapeRows (List.range (R * C)) R C =
    (List.range R).map (fun rr => (List.range C).map (fun c => rr * C + c)) := by
  unfold reshapeRows
  apply List.map_congr_left
  intro rr hr
  rw [List.mem_range] at hr
  apply List.map_congr_left
  intro c hc
  rw [List.mem_range] at hc
  have hlt : rr * C + c < R * C := by
    calc rr * C + c < rr * C + C := by omega
      _ = (rr + 1) * C := by ring
      _ ≤ R * C := Nat.mul_le_mul_right _ (by omega)
  rw [List.getD_eq_getElem?_getD, List.getElem?_range hlt]
  rfl

lemma flatMap_double {α : Type} (R : ℕ) (g : ℕ → α) :
    ((List.range R).map g).flatMap (fun r => [r, r]) =
    (List.range (2 * R)).map (fun u => g (u / 2)) := by
  induction R with
  | zero => simp
  | succ n ih =>
    rw [List.range_succ, List.map_append, List.flatMap_append, ih]
    have h2 : 2 * (n + 1) = 2 * n + 1 + 1 := by ring
    rw [h2, List.range_succ, List.range_succ, List.map_append, List.map_append]
    have ha : 2 * n / 2 = n := by omega
    have hb : (2 * n + 1) / 2 = n := by omega
    simp [ha, hb]

lemma flatten_map_range {α : Type} (R C : ℕ) (h : ℕ → ℕ → α) :
    ((List.range R).map (fun u => (List.range C).map (fun v => h u v))).flatten =
    (List.range (R * C)).map (fun t => h (t / C) (t % C)) := by
  induction R with
  | zero => simp
  | succ n ih =>
    rw [List.range_succ, List.map_append, List.flatten_append, ih]
    simp only [List.map_cons, List.map_nil, List.flatten_cons, List.flatten_nil,
      List.append_nil]
    have h1 : (n + 1) * C = n * C + C := by ring
    rw [h1, List.range_add, List.map_append, List.map_map]
    congr 1
    apply List.map_congr_left
    intro v hv
    rw [List.mem_range] at hv
    have hC : 0 < C := by omega
    have hd : (n * C + v) / C = n := by
      rw [show n * C + v = v + n * C from by ring, Nat.add_mul_div_right _ _ hC,
        Nat.div_eq_of_lt hv, Nat.zero_add]
    have hm : (n * C + v) % C = v := by
      rw [show n * C + v = v + n * C from by ring, Nat.add_mul_mod_self_right,
        Nat.mod_eq_of_lt hv]
    simp only [Function.comp_apply, hd, hm]

end GraphPDE

namespace GraphPDE

lemma quarter_eq {hx hy : ℕ} (h2x : 2 ∣ hx) (h2y : 2 ∣ hy) :
    hx * hy / 4 = hx / 2 * (hy / 2) := by
  obtain ⟨px, rfl⟩ := h2x
  obtain ⟨py, rfl⟩ := h2y
  have h4 : 2 * px * (2 * py) = 4 * (px * py) := by ring
  have ha : 2 * px / 2 = px := by omega
  have hb : 2 * py / 2 = py := by omega
  rw [h4, Nat.mul_div_cancel_left _ (by norm_num : (0 : ℕ) < 4), ha, hb]

lemma interIndex2_eq {hx hy : ℕ} (off2 : ℕ) (h2x : 2 ∣ hx) (h2y : 2 ∣ hy) :
    interIndex2 hx hy off2 =
    (List.range (hx * hy)).map (fun t => coarseParent hy t + off2) := by
  unfold interIndex2
  rw [quarter_eq h2x h2y, reshapeRows_range (hx / 2) (hy / 2)]
  have h2 : ((List.range (hx / 2)).map
        (fun rr => (List.range (hy / 2)).map (fun c => rr * (hy / 2) + c))).flatMap
        (fun row => [row, row]) =
      (List.range (2 * (hx / 2))).map
        (fun u => (List.range (hy / 2)).map (fun c => u / 2 * (hy / 2) + c)) :=
    flatMap_double (hx / 2) _
  rw [h2, List.map_map]
  have h3 : (List.range (2 * (hx / 2))).map
        ((fun row => row.flatMap (fun e => [e, e])) ∘
          (fun u => (List.range (hy / 2)).map (fun c => u / 2 * (hy / 2) + c))) =
      (List.range (2 * (hx / 2))).map
        (fun u => (List.range (2 * (hy / 2))).map (fun v => u / 2 * (hy / 2) + v / 2)) := by
    apply List.map_congr_left
    intro u _
    simp only [Function.comp_apply]
    exact flatMap_double (hy / 2) _
  rw [h3]
  have hhx : 2 * (hx / 2) = hx := by omega
  have hhy : 2 * (hy / 2) = hy := by omega
  rw [hhx, hhy, flatten_map_range hx hy (fun u v => u / 2 * (hy / 2) + v / 2),
    List.map_map]
  rfl

lemma coarseParent_lt {hx hy t : ℕ} (h2x : 2 ∣ hx) (h2y : 2 ∣ hy)
    (ht : t < hx * hy) : coarseParent hy t < hx / 2 * (hy / 2) := by
  unfold coarseParent
  have hy0 : 0 < hy := by
    rcases Nat.eq_zero_or_pos hy with h | h
    · subst h; simp at ht
    · exact h
  have h1 : t / hy < hx := (Nat.div_lt_iff_lt_mul hy0).mpr (by
    calc t < hx * hy := ht
      _ = hx * hy := rfl)
  have h2 : t / hy / 2 < hx / 2 := by omega
  have h3 : t % hy < hy := Nat.mod_lt t hy0
  have h4 : t % hy / 2 < hy / 2 := by omega
  calc t / hy / 2 * (hy / 2) + t % hy / 2
      < t / hy / 2 * (hy / 2) + hy / 2 := by omega
    _ = (t / hy / 2 + 1) * (hy / 2) := by ring
    _ ≤ hx / 2 * (hy / 2) := Nat.mul_le_mul_right _ (by omega)

lemma interBlock_eq {hx hy : ℕ} (off1 off2 : ℕ) (h2x : 2 ∣ hx) (h2y : 2 ∣ hy) :
    interBlock hx hy off1 off2 = some (
      ((List.range (hx * hy)).map (fun t => (t + off1, coarseParent hy t + off2))) ++
      ((List.range (hx * hy)).map (fun t => (coarseParent hy t + off2, t + off1))),
      List.replicate (hx * hy) ((0 : ℚ), (0 : ℚ), (1 : ℚ)) ++
      List.replicate (hx * hy) ((0 : ℚ), (0 : ℚ), (-1 : ℚ))) := by
  unfold interBlock
  rw [if_pos (quarter_eq h2x h2y)]
  simp only [interIndex2_eq off2 h2x h2y]
  set A := (List.range (hx * hy)).map (fun t => t + off1) with hAdef
  set B := (List.range (hx * hy)).map (fun t => coarseParent hy t + off2) with hBdef
  have hAlen : A.length = hx * hy := by rw [hAdef]; simp
  have hBlen : B.length = hx * hy := by rw [hBdef]; simp
  split
  · next hev =>
    have hm : (A ++ B).length / 2 = A.length := by
      rw [List.length_append, hAlen, hBlen]; omega
    rw [hm, List.take_left, List.drop_left]
    rw [show A.length = B.length from by rw [hAlen, hBlen]]
    rw [List.take_left, List.drop_left]
    rw [hAdef, hBdef, List.zip_map', List.zip_map']
  · next hev =>
    exfalso
    apply hev
    rw [List.length_append, hAlen, hBlen]
    omega

end GraphPDE

namespace GraphPDE

lemma mgStep_ok_cases {n_x n_y depth : ℕ} {sel : String} {params : List ℚ}
    {l num : ℕ} {X : List (ℚ × ℚ)} {E : List (ℕ × ℕ)} {A : List Q3} {num' : ℕ}
    (h : mgStep n_x n_y depth sel params l num = .ok (X, E, A, num')) :
    ∃ a, downsample params n_x (2 ^ l) = some a ∧
      X = gridPoints (n_y / 2 ^ l) (n_x / 2 ^ l) ∧
      num' = num + n_x / 2 ^ l * (n_y / 2 ^ l) ∧
      ((l = depth - 1 ∧
          E = (stencilEdgeIndex (n_y / 2 ^ l) (n_x / 2 ^ l)).map
                (fun p => (p.1 + num, p.2 + num)) ∧
          A = gridEdgeAttr (n_y / 2 ^ l) (n_x / 2 ^ l) a) ∨
        (l ≠ depth - 1 ∧ ∃ ie ia,
          interBlock (n_x / 2 ^ l) (n_y / 2 ^ l) num
              (num + n_x / 2 ^ l * (n_y / 2 ^ l)) = some (ie, ia) ∧
          E = (stencilEdgeIndex (n_y / 2 ^ l) (n_x / 2 ^ l)).map
                (fun p => (p.1 + num, p.2 + num)) ++ ie ∧
          A = gridEdgeAttr (n_y / 2 ^ l) (n_x / 2 ^ l) a ++ ia)) := by
  unfold mgStep at h
  cases hdown : downsample params n_x (2 ^ l) with
  | none => rw [hdown] at h; exact absurd h (by simp)
  | some a =>
    rw [hdown] at h
    simp only [] at h
    refine ⟨a, rfl, ?_⟩
    by_cases h1 : sel = "grid"
    · rw [if_pos h1] at h
      exact absurd h (by simp)
    · rw [if_neg h1] at h
      by_cases h2 : sel = "grid_edge"
      · rw [if_pos h2] at h
        cases hge : grid_edge (n_y / 2 ^ l) (n_x / 2 ^ l) a with
        | none => rw [hge] at h; exact absurd h (by simp)
        | some r =>
          obtain ⟨X0, ei0, ea0⟩ := r
          rw [hge] at h
          simp only [] at h
          obtain ⟨hX0, hei0, hea0, -⟩ := grid_edge_eq_some hge
          subst hX0; subst hei0; subst hea0
          by_cases h3 : l ≠ depth - 1
          · rw [if_pos h3] at h
            cases hib : interBlock (n_x / 2 ^ l) (n_y / 2 ^ l) num
                (num + n_x / 2 ^ l * (n_y / 2 ^ l)) with
            | none => rw [hib] at h; exact absurd h (by simp)
            | some ria =>
              obtain ⟨ie, ia⟩ := ria
              rw [hib] at h
              simp only [Except.ok.injEq, Prod.mk.injEq] at h
              obtain ⟨hX, hE, hA, hnum⟩ := h
              exact ⟨hX.symm, hnum.symm, Or.inr ⟨h3, ie, ia, rfl, hE.symm, hA.symm⟩⟩
          · rw [if_neg h3] at h
            simp only [Except.ok.injEq, Prod.mk.injEq] at h
            obtain ⟨hX, hE, hA, hnum⟩ := h
            refine ⟨hX.symm, hnum.symm, Or.inl ⟨by omega, hE.symm, hA.symm⟩⟩
      · rw [if_neg h2] at h
        by_cases h4 : sel = "grid_edge_aug"
        · rw [if_pos h4] at h
          cases hge : grid_edge (n_y / 2 ^ l) (n_x / 2 ^ l) a with
          | none => rw [hge] at h; exact absurd h (by simp)
          | some r =>
            obtain ⟨X0, ei0, ea0⟩ := r
            rw [hge] at h
            simp only [] at h
            obtain ⟨hX0, hei0, hea0, -⟩ := grid_edge_eq_some hge
            subst hX0; subst hei0; subst hea0
            by_cases h3 : l ≠ depth - 1
            · rw [if_pos h3] at h
              cases hib : interBlock (n_x / 2 ^ l) (n_y / 2 ^ l) num
                  (num + n_x / 2 ^ l * (n_y / 2 ^ l)) with
              | none => rw [hib] at h; exact absurd h (by simp)
              | some ria =>
                obtain ⟨ie, ia⟩ := ria
                rw [hib] at h
                simp only [Except.ok.injEq, Prod.mk.injEq] at h
                obtain ⟨hX, hE, hA, hnum⟩ := h
                exact ⟨hX.symm, hnum.symm, Or.inr ⟨h3, ie, ia, rfl, hE.symm, hA.symm⟩⟩
            · rw [if_neg h3] at h
              simp only [Except.ok.injEq, Prod.mk.injEq] at h
              obtain ⟨hX, hE, hA, hnum⟩ := h
              refine ⟨hX.symm, hnum.symm, Or.inl ⟨by omega, hE.symm, hA.symm⟩⟩
        · rw [if_neg h4] at h
          exact absurd h (by simp)

end GraphPDE

namespace GraphPDE

lemma swapPaired_length {α : Type} {sw : α → α} {es : List (ℕ × ℕ)} {bs : List α}
    (h : SwapPaired sw es bs) : es.length = bs.length := by
  induction h with
  | nil => rfl
  | cons i j a h ih => simp [ih]

lemma gridEdgeAttr_length (n_x n_y : ℕ) (a : List ℚ) :
    (gridEdgeAttr n_x n_y a).length = (stencilEdgeIndex n_x n_y).length :=
  (swapPaired_length (swapPaired_gridEdgeAttr n_x n_y a)).symm

lemma gridPoints_length (n_x n_y : ℕ) : (gridPoints n_x n_y).length = n_y * n_x := by
  simp [gridPoints]

lemma mgBuild_inv {n_x n_y depth : ℕ} {sel : String} {params : List ℚ}
    (hdx : 2 ^ (depth - 1) ∣ n_x) (hdy : 2 ^ (depth - 1) ∣ n_y) :
    ∀ cnt l num X E A num',
      l + cnt = depth →
      mgBuild n_x n_y depth sel params cnt l num = .ok (X, E, A, num') →
      num' = num + ((List.range' l cnt).map (lvlSize n_x n_y)).sum ∧
      X.length = ((List.range' l cnt).map (lvlSize n_x n_y)).sum ∧
      ∀ e ∈ E, e.1 < num' ∧ e.2 < num' := by
  intro cnt
  induction cnt with
  | zero =>
    intro l num X E A num' hl h
    unfold mgBuild at h
    simp only [Except.ok.injEq, Prod.mk.injEq] at h
    obtain ⟨hX, hE, hA, hnum⟩ := h
    subst hX; subst hE; subst hnum
    refine ⟨by simp, by simp, ?_⟩
    intro e he
    simp at he
  | succ n ih =>
    intro l num X E A num' hl h
    unfold mgBuild at h
    cases hs : mgStep n_x n_y depth sel params l num with
    | error e => rw [hs] at h; exact absurd h (by simp)
    | ok r =>
      obtain ⟨X0, E0, A0, num0⟩ := r
      rw [hs] at h
      simp only [] at h
      cases hb : mgBuild n_x n_y depth sel params n (l + 1) num0 with
      | error e => rw [hb] at h; exact absurd h (by simp)
      | ok r2 =>
        obtain ⟨Xr, Er, Ar, numF⟩ := r2
        rw [hb] at h
        simp only [Except.ok.injEq, Prod.mk.injEq] at h
        obtain ⟨hX, hE, hA, hnum⟩ := h
        obtain ⟨hnum2, hXlen, hbound⟩ := ih (l + 1) num0 Xr Er Ar numF (by omega) hb
        obtain ⟨a, hdown, hX0, hnum0, hcases⟩ := mgStep_ok_cases hs
        have hsum : ((List.range' l (n + 1)).map (lvlSize n_x n_y)).sum =
            lvlSize n_x n_y l + ((List.range' (l + 1) n).map (lvlSize n_x n_y)).sum := by
          rw [List.range'_succ, List.map_cons, List.sum_cons]
        have hlvl : lvlSize n_x n_y l = n_x / 2 ^ l * (n_y / 2 ^ l) := rfl
        have hnum' : num' = num + ((List.range' l (n + 1)).map (lvlSize n_x n_y)).sum := by
          rw [← hnum, hnum2, hnum0, hsum, hlvl]
          omega
        refine ⟨hnum', ?_, ?_⟩
        · rw [← hX, List.length_append, hXlen, hX0, gridPoints_length, hsum, hlvl]
        · intro e he
          rw [← hE, List.mem_append] at he
          have hnumF_ge : num0 ≤ numF := by rw [hnum2]; omega
          rcases he with he | he
          · -- level-l edges
            have hintra : ∀ e', e' ∈ (stencilEdgeIndex (n_y / 2 ^ l) (n_x / 2 ^ l)).map
                (fun p => (p.1 + num, p.2 + num)) → e'.1 < num0 ∧ e'.2 < num0 := by
              intro e' he'
              rw [List.mem_map] at he'
              obtain ⟨p, hp, rfl⟩ := he'
              have hb2 := stencilEdgeIndex_mem hp
              have hcomm : n_y / 2 ^ l * (n_x / 2 ^ l) = n_x / 2 ^ l * (n_y / 2 ^ l) :=
                Nat.mul_comm _ _
              rw [hnum0]
              constructor <;> dsimp only <;> omega
            rcases hcases with ⟨hlast, hEeq, -⟩ | ⟨hnotlast, ie, ia, hib, hEeq, -⟩
            · rw [hEeq] at he
              have := hintra e he
              rw [← hnum]
              exact ⟨by omega, by omega⟩
            · rw [hEeq, List.mem_append] at he
              rcases he with he | he
              · have := hintra e he
                rw [← hnum]
                exact ⟨by omega, by omega⟩
              · -- inter-level edges
                have hn1 : 1 ≤ n := by omega
                have h2x : 2 ∣ n_x / 2 ^ l := even_level_div hdx (by omega)
                have h2y : 2 ∣ n_y / 2 ^ l := even_level_div hdy (by omega)
                have hclosed := interBlock_eq num (num + n_x / 2 ^ l * (n_y / 2 ^ l)) h2x h2y
                rw [hib] at hclosed
                simp only [Option.some.injEq, Prod.mk.injEq] at hclosed
                obtain ⟨hie, -⟩ := hclosed
                rw [hie, List.mem_append] at he
                have hnext : lvlSize n_x n_y (l + 1) ≤
                    ((List.range' (l + 1) n).map (lvlSize n_x n_y)).sum := by
                  obtain ⟨n', rfl⟩ : ∃ n', n = n' + 1 := ⟨n - 1, by omega⟩
                  rw [List.range'_succ, List.map_cons, List.sum_cons]
                  omega
                have hpar : ∀ t, t < n_x / 2 ^ l * (n_y / 2 ^ l) →
                    coarseParent (n_y / 2 ^ l) t < lvlSize n_x n_y (l + 1) := by
                  intro t ht
                  have := coarseParent_lt h2x h2y ht
                  rw [hlvl] at *
                  have hx1 : n_x / 2 ^ l / 2 = n_x / 2 ^ (l + 1) := level_div_succ n_x l
                  have hy1 : n_y / 2 ^ l / 2 = n_y / 2 ^ (l + 1) := level_div_succ n_y l
                  calc coarseParent (n_y / 2 ^ l) t
                      < n_x / 2 ^ l / 2 * (n_y / 2 ^ l / 2) := this
                    _ = lvlSize n_x n_y (l + 1) := by rw [hx1, hy1]; rfl
                rcases he with he | he <;>
                  · rw [List.mem_map] at he
                    obtain ⟨t, ht, rfl⟩ := he
                    rw [List.mem_range] at ht
                    have hp1 := hpar t ht
                    rw [← hnum, hnum2, hnum0]
                    constructor <;> dsimp only <;> omega
          · -- edges of the coarser levels
            have := hbound e he
            rw [← hnum]
            exact this

end GraphPDE

namespace GraphPDE

/-- C3: for every `depth ≥ 1` and `n_x`, `n_y` divisible by `2^(depth−1)`,
a successful `multi_grid` run returns a node count equal to the sum over
levels `l < depth` of `(n_x/2^l)·(n_y/2^l)` (both as `num_nodes` and as the
number of node rows), every source and target index in the combined edge
list is strictly below that total, and the mask index sequence is
`range(n_x·n_y)`. -/
theorem multi_grid_invariants (depth n_x n_y : ℕ) (sel : String) (params : List ℚ)
    (hdepth : 1 ≤ depth) (hdx : 2 ^ (depth - 1) ∣ n_x) (hdy : 2 ^ (depth - 1) ∣ n_y)
    (X : List (ℚ × ℚ)) (ei : List (ℕ × ℕ)) (ea : List Q3) (mask : List ℕ) (num : ℕ)
    (h : multi_grid depth n_x n_y sel params = .ok (X, ei, ea, mask, num)) :
    num = ∑ l ∈ Finset.range depth, n_x / 2 ^ l * (n_y / 2 ^ l) ∧
    X.length = num ∧
    (∀ e ∈ ei, e.1 < num ∧ e.2 < num) ∧
    mask = List.range (n_x * n_y) := by
  unfold multi_grid at h
  cases hb : mgBuild n_x n_y depth sel params depth 0 0 with
  | error e => rw [hb] at h; exact absurd h (by simp)
  | ok r =>
    obtain ⟨X0, E0, A0, num0⟩ := r
    rw [hb] at h
    simp only [] at h
    rw [if_neg (by omega : ¬depth = 0)] at h
    simp only [Except.ok.injEq, Prod.mk.injEq] at h
    obtain ⟨hX, hE, hA, hmask, hnum⟩ := h
    obtain ⟨hnum0, hXlen, hbound⟩ :=
      mgBuild_inv hdx hdy depth 0 0 X0 E0 A0 num0 (by omega) hb
    have hr : List.range' 0 depth = List.range depth := (List.range_eq_range' depth).symm
    subst hX; subst hE; subst hA; subst hmask; subst hnum
    have hsum : ((List.range' 0 depth).map (lvlSize n_x n_y)).sum =
        ∑ l ∈ Finset.range depth, n_x / 2 ^ l * (n_y / 2 ^ l) := by
      rw [hr]; rfl
    refine ⟨by rw [hnum0, hsum]; omega, by rw [hXlen, hnum0]; omega, hbound, rfl⟩

theorem multi_grid_invariants_witness :
    ((1 : ℕ) ≤ 2 ∧ (2 : ℕ) ^ (2 - 1) ∣ 4) ∧
    ∃ X ei ea mask num,
      multi_grid 2 4 4 "grid_edge" (List.replicate 16 (1 : ℚ)) =
        .ok (X, ei, ea, mask, num) ∧
      num = ∑ l ∈ Finset.range 2, 4 / 2 ^ l * (4 / 2 ^ l) ∧
      X.length = num ∧ mask = List.range (4 * 4) := by
  refine ⟨⟨by norm_num, by norm_num⟩, ?_⟩
  refine ⟨_, _, _, _, _, rfl, ?_, ?_, ?_⟩ <;>
    · have := multi_grid_invariants 2 4 4 "grid_edge" (List.replicate 16 (1 : ℚ))
        (by norm_num) (by norm_num) (by norm_num) _ _ _ _ _ rfl
      first
        | exact this.1
        | exact this.2.1
        | exact this.2.2.2

end GraphPDE

namespace GraphPDE

lemma mgStep_len {n_x n_y depth : ℕ} {sel : String} {params : List ℚ}
    {l num : ℕ} {X : List (ℚ × ℚ)} {E : List (ℕ × ℕ)} {A : List Q3} {num' : ℕ}
    (hdx : 2 ^ (depth - 1) ∣ n_x) (hdy : 2 ^ (depth - 1) ∣ n_y)
    (hld : l + 1 ≤ depth)
    (h : mgStep n_x n_y depth sel params l num = .ok (X, E, A, num')) :
    E.length = A.length := by
  obtain ⟨a, -, -, -, hcases⟩ := mgStep_ok_cases h
  rcases hcases with ⟨-, hE, hA⟩ | ⟨hne, ie, ia, hib, hE, hA⟩
  · rw [hE, hA, List.length_map, gridEdgeAttr_length]
  · have h2x : 2 ∣ n_x / 2 ^ l := even_level_div hdx (by omega)
    have h2y : 2 ∣ n_y / 2 ^ l := even_level_div hdy (by omega)
    have hclosed := interBlock_eq num (num + n_x / 2 ^ l * (n_y / 2 ^ l)) h2x h2y
    rw [hib] at hclosed
    simp only [Option.some.injEq, Prod.mk.injEq] at hclosed
    obtain ⟨hie, hia⟩ := hclosed
    rw [hE, hA, hie, hia]
    simp only [List.length_append, List.length_map, List.length_replicate,
      List.length_range, gridEdgeAttr_length]

lemma mgBuild_reach {n_x n_y depth : ℕ} {sel : String} {params : List ℚ}
    (hdx : 2 ^ (depth - 1) ∣ n_x) (hdy : 2 ^ (depth - 1) ∣ n_y) :
    ∀ cnt l num X E A num',
      l + cnt = depth →
      mgBuild n_x n_y depth sel params cnt l num = .ok (X, E, A, num') →
      ∀ j, j < cnt →
        ∃ Xj Ej Aj numj,
          mgStep n_x n_y depth sel params (l + j)
            (num + ((List.range' l j).map (lvlSize n_x n_y)).sum) =
            .ok (Xj, Ej, Aj, numj) ∧
          ∀ p : (ℕ × ℕ) × Q3, p ∈ Ej.zip Aj → p ∈ E.zip A := by
  intro cnt
  induction cnt with
  | zero =>
    intro l num X E A num' hl h j hj
    omega
  | succ n ih =>
    intro l num X E A num' hl h j hj
    unfold mgBuild at h
    cases hs : mgStep n_x n_y depth sel params l num with
    | error e => rw [hs] at h; exact absurd h (by simp)
    | ok r =>
      obtain ⟨X0, E0, A0, num0⟩ := r
      rw [hs] at h
      simp only [] at h
      cases hb : mgBuild n_x n_y depth sel params n (l + 1) num0 with
      | error e => rw [hb] at h; exact absurd h (by simp)
      | ok r2 =>
        obtain ⟨Xr, Er, Ar, numF⟩ := r2
        rw [hb] at h
        simp only [Except.ok.injEq, Prod.mk.injEq] at h
        obtain ⟨hX, hE, hA, hnum⟩ := h
        have hlen0 : E0.length = A0.length :=
          mgStep_len hdx hdy (by omega) hs
        have hzip : E.zip A = E0.zip A0 ++ Er.zip Ar := by
          rw [← hE, ← hA, List.zip_append hlen0]
        cases j with
        | zero =>
          refine ⟨X0, E0, A0, num0, by simpa using hs, ?_⟩
          intro p hp
          rw [hzip, List.mem_append]
          exact Or.inl hp
        | succ j' =>
          obtain ⟨a, -, -, hnum0, -⟩ := mgStep_ok_cases hs
          obtain ⟨Xj, Ej, Aj, numj, hstep, hsub⟩ :=
            ih (l + 1) num0 Xr Er Ar numF (by omega) hb j' (by omega)
          refine ⟨Xj, Ej, Aj, numj, ?_, ?_⟩
          · have ha : l + (j' + 1) = l + 1 + j' := by omega
            have hb2 : num + ((List.range' l (j' + 1)).map (lvlSize n_x n_y)).sum =
                num0 + ((List.range' (l + 1) j').map (lvlSize n_x n_y)).sum := by
              rw [List.range'_succ, List.map_cons, List.sum_cons, hnum0]
              have hlvl : lvlSize n_x n_y l = n_x / 2 ^ l * (n_y / 2 ^ l) := rfl
              omega
            rw [ha, hb2]
            exact hstep
          · intro p hp
            rw [hzip, List.mem_append]
            exact Or.inr (hsub p hp)

end GraphPDE

namespace GraphPDE

lemma mgOffset_succ (n_x n_y l : ℕ) :
    mgOffset n_x n_y (l + 1) = mgOffset n_x n_y l + lvlSize n_x n_y l := by
  unfold mgOffset
  rw [List.range_succ, List.map_append, List.sum_append]
  simp

/-- C9: in every successful `multi_grid` run (under the divisibility
precondition), every non-coarsest level `l` contributes, for every fine node
`t` of that level, a directed edge fine→coarse with feature `(0,0,1)` and a
directed edge coarse→fine with feature `(0,0,−1)`; the coarse endpoint is
`coarseParent (n_y/2^l) t` — the 2×2 block-coarsening parent obtained by
reshaping `range(n_l/4)` to the coarse grid shape and replicating each entry
into its 2×2 fine block — offset by `mgOffset n_x n_y (l+1)` so that it
indexes into the next level's node block. -/
theorem multi_grid_inter_level_edges (depth n_x n_y : ℕ) (sel : String)
    (params : List ℚ)
    (hdx : 2 ^ (depth - 1) ∣ n_x) (hdy : 2 ^ (depth - 1) ∣ n_y)
    (X : List (ℚ × ℚ)) (ei : List (ℕ × ℕ)) (ea : List Q3) (mask : List ℕ) (num : ℕ)
    (h : multi_grid depth n_x n_y sel params = .ok (X, ei, ea, mask, num)) :
    ∀ l, l + 1 < depth → ∀ t, t < lvlSize n_x n_y l →
      ((t + mgOffset n_x n_y l,
        coarseParent (n_y / 2 ^ l) t + mgOffset n_x n_y (l + 1)),
        ((0 : ℚ), (0 : ℚ), (1 : ℚ))) ∈ ei.zip ea ∧
      ((coarseParent (n_y / 2 ^ l) t + mgOffset n_x n_y (l + 1),
        t + mgOffset n_x n_y l),
        ((0 : ℚ), (0 : ℚ), (-1 : ℚ))) ∈ ei.zip ea := by
  intro l hl t ht
  unfold multi_grid at h
  cases hb : mgBuild n_x n_y depth sel params depth 0 0 with
  | error e => rw [hb] at h; exact absurd h (by simp)
  | ok r =>
    obtain ⟨X0, E0, A0, num0⟩ := r
    rw [hb] at h
    simp only [] at h
    rw [if_neg (by omega : ¬depth = 0)] at h
    simp only [Except.ok.injEq, Prod.mk.injEq] at h
    obtain ⟨hX, hE, hA, hmask, hnum⟩ := h
    obtain ⟨Xj, Ej, Aj, numj, hstep, hsub⟩ :=
      mgBuild_reach hdx hdy depth 0 0 X0 E0 A0 num0 (by omega) hb l (by omega)
    rw [Nat.zero_add] at hstep
    have hoff : ((List.range' 0 l).map (lvlSize n_x n_y)).sum = mgOffset n_x n_y l := by
      unfold mgOffset
      rw [List.range_eq_range']
    rw [Nat.zero_add, hoff] at hstep
    obtain ⟨a, -, -, hnumj, hcases⟩ := mgStep_ok_cases hstep
    rcases hcases with ⟨hlast, -, -⟩ | ⟨hne, ie, ia, hib, hEj, hAj⟩
    · omega
    · have h2x : 2 ∣ n_x / 2 ^ l := even_level_div hdx (by omega)
      have h2y : 2 ∣ n_y / 2 ^ l := even_level_div hdy (by omega)
      have hclosed := interBlock_eq (mgOffset n_x n_y l)
        (mgOffset n_x n_y l + n_x / 2 ^ l * (n_y / 2 ^ l)) h2x h2y
      rw [hib] at hclosed
      simp only [Option.some.injEq, Prod.mk.injEq] at hclosed
      obtain ⟨hie, hia⟩ := hclosed
      have hoff2 : mgOffset n_x n_y l + n_x / 2 ^ l * (n_y / 2 ^ l) =
          mgOffset n_x n_y (l + 1) := by
        rw [mgOffset_succ]
        rfl
      have hlen1 : ((stencilEdgeIndex (n_y / 2 ^ l) (n_x / 2 ^ l)).map
          (fun p => (p.1 + mgOffset n_x n_y l, p.2 + mgOffset n_x n_y l))).length =
          (gridEdgeAttr (n_y / 2 ^ l) (n_x / 2 ^ l) a).length := by
        rw [List.length_map, gridEdgeAttr_length]
      have hmem : ∀ p : (ℕ × ℕ) × Q3, p ∈ ie.zip ia → p ∈ ei.zip ea := by
        intro p hp
        rw [← hE, ← hA]
        apply hsub
        rw [hEj, hAj, List.zip_append hlen1, List.mem_append]
        exact Or.inr hp
      have hrep1 : List.replicate (n_x / 2 ^ l * (n_y / 2 ^ l))
          ((0 : ℚ), (0 : ℚ), (1 : ℚ)) =
          (List.range (n_x / 2 ^ l * (n_y / 2 ^ l))).map
            (fun _ => ((0 : ℚ), (0 : ℚ), (1 : ℚ))) := by
        simp
      have hrep2 : List.replicate (n_x / 2 ^ l * (n_y / 2 ^ l))
          ((0 : ℚ), (0 : ℚ), (-1 : ℚ)) =
          (List.range (n_x / 2 ^ l * (n_y / 2 ^ l))).map
            (fun _ => ((0 : ℚ), (0 : ℚ), (-1 : ℚ))) := by
        simp
      have hlen2 : ((List.range (n_x / 2 ^ l * (n_y / 2 ^ l))).map
          (fun t => (t + mgOffset n_x n_y l,
            coarseParent (n_y / 2 ^ l) t +
              (mgOffset n_x n_y l + n_x / 2 ^ l * (n_y / 2 ^ l))))).length =
          (List.replicate (n_x / 2 ^ l * (n_y / 2 ^ l))
            ((0 : ℚ), (0 : ℚ), (1 : ℚ))).length := by
        simp
      have ht' : t < n_x / 2 ^ l * (n_y / 2 ^ l) := ht
      constructor
      · apply hmem
        rw [hie, hia, List.zip_append hlen2, List.mem_append]
        left
        rw [hrep1, List.zip_map', List.mem_map]
        refine ⟨t, List.mem_range.mpr ht', ?_⟩
        rw [← hoff2]
      · apply hmem
        rw [hie, hia, List.zip_append hlen2, List.mem_append]
        right
        rw [hrep2, List.zip_map', List.mem_map]
        refine ⟨t, List.mem_range.mpr ht', ?_⟩
        rw [← hoff2]

end GraphPDE

namespace GraphPDE

theorem multi_grid_inter_level_edges_witness :
    ((2 : ℕ) ^ (2 - 1) ∣ 4 ∧ 0 + 1 < 2 ∧ 0 < lvlSize 4 4 0) ∧
    ∃ X ei ea mask num,
      multi_grid 2 4 4 "grid_edge" (List.replicate 16 (1 : ℚ)) =
        .ok (X, ei, ea, mask, num) ∧
      ((0 + mgOffset 4 4 0, coarseParent (4 / 2 ^ 0) 0 + mgOffset 4 4 (0 + 1)),
        ((0 : ℚ), (0 : ℚ), (1 : ℚ))) ∈ ei.zip ea ∧
      ((coarseParent (4 / 2 ^ 0) 0 + mgOffset 4 4 (0 + 1), 0 + mgOffset 4 4 0),
        ((0 : ℚ), (0 : ℚ), (-1 : ℚ))) ∈ ei.zip ea := by
  refine ⟨⟨by norm_num, by norm_num, by decide⟩, ?_⟩
  refine ⟨_, _, _, _, _, rfl, ?_, ?_⟩ <;>
    · have := multi_grid_inter_level_edges 2 4 4 "grid_edge"
        (List.replicate 16 (1 : ℚ)) (by norm_num) (by norm_num) _ _ _ _ _ rfl
        0 (by norm_num) 0 (by decide)
      first
        | exact this.1
        | exact this.2

end GraphPDE
